import Mathlib

/-!
Verification development for the pysotropy core (`src/pysotropy/core.py`):
a shallow embedding of the tabular output parser (`detect_data_form_and_convert`,
`detect_multirows_and_split`, `detect_column_indexes`, `split_line_by_indexes`,
`IsotropySession._parse_output`), the line classifier (`read_iso_line`), the
remote state mirror (`Shows`, `Values`) and the restart/replay logic
(`IsotropySession.__init__` / `restart_session`), together with theorems that
settle the specification claims.  Python strings are represented as `List Char`.
-/

namespace Pysotropy

/-- Python whitespace class, as used by `str.strip`, `str.split` and the regex
class `\s` on ASCII input: space, tab, newline, carriage return, vertical tab,
form feed. -/
def isPySpace (c : Char) : Bool :=
  c = ' ' || c = '\t' || c = '\n' || c = '\r' || c = '\x0b' || c = '\x0c'

/-- The characters of a string literal; Python `str` is modelled as `List Char`. -/
def str (s : String) : List Char := s.data

/-- Left half of Python `str.strip()`: drop leading whitespace. -/
def stripLead (l : List Char) : List Char := l.dropWhile isPySpace

/-- Python `str.rstrip()` with no argument: drop trailing whitespace. -/
def stripTrail (l : List Char) : List Char := (l.reverse.dropWhile isPySpace).reverse

/-- Python `str.strip()`: drop leading and trailing whitespace. -/
def pyStrip (l : List Char) : List Char := stripTrail (stripLead l)

/-- Python `raw.rstrip('\n')`: drop trailing newline characters only
(`IsotropySession.read_iso_line`). -/
def stripTrailNl (l : List Char) : List Char := (l.reverse.dropWhile (· = '\n')).reverse

/-- Truth value of the regex lookahead `(?![^()]*\))` at a given remainder of the
input: the negative lookahead succeeds exactly when the first parenthesis
character in the remainder, if there is one, is an opening one.  This is the
"delimiter not enclosed in parentheses" test of `detect_data_form_and_convert`. -/
def noCloseBeforeOpen : List Char → Bool
  | [] => true
  | c :: cs => if c = ')' then false else if c = '(' then true else noCloseBeforeOpen cs

/-- Scanner for Python `re.split(r'[d]\s*(?![^()]*\))', s)` (with `d` the pipe or
comma delimiter): walks the characters keeping the current piece in `acc`
(reversed); `skip` records that a delimiter was just consumed, so following
whitespace belongs to the separator (the greedy `\s*`).  A character splits when
it equals the delimiter and the lookahead succeeds on the remainder (whitespace
never contains a parenthesis, so skipping it does not change the lookahead). -/
def splitDGo (d : Char) : List Char → List Char → Bool → List (List Char)
  | acc, [], _ => [acc.reverse]
  | acc, c :: cs, skip =>
    if skip && isPySpace c then splitDGo d acc cs true
    else if c = d && noCloseBeforeOpen cs then acc.reverse :: splitDGo d [] cs true
    else splitDGo d (c :: acc) cs false

/-- `re.split(r'[d]\s*(?![^()]*\))', s)` for a non-whitespace delimiter `d`. -/
def splitD (d : Char) (s : List Char) : List (List Char) := splitDGo d [] s false

/-- The number of split points of `splitD d` in a string: positions holding the
delimiter at which the lookahead succeeds. -/
def countSplits (d : Char) : List Char → Nat
  | [] => 0
  | c :: cs => (if c = d && noCloseBeforeOpen cs then 1 else 0) + countSplits d cs

/-- Scanner for Python `str.split()` (split on whitespace runs, discarding empty
pieces): `acc` holds the current token reversed. -/
def pySplitGo : List Char → List Char → List (List Char)
  | acc, [] => if acc.isEmpty then [] else [acc.reverse]
  | acc, c :: cs =>
    if isPySpace c then
      if acc.isEmpty then pySplitGo [] cs
      else acc.reverse :: pySplitGo [] cs
    else pySplitGo (c :: acc) cs

/-- Python `str.split()` with no argument. -/
def pySplitWs (s : List Char) : List (List Char) := pySplitGo [] s

/-- Tail test for the regex `^\s*\(.*\)$` after the opening parenthesis was
consumed: the rest must be `mid ++ [')']` or `mid ++ [')', '\n']` (matching `$`
just before a final newline) with `mid` free of `'\n'` (`.` does not match a
newline). -/
def parenTail (rest : List Char) : Bool :=
  match rest.reverse with
  | [] => false
  | c :: rev =>
    if c = ')' then !rev.contains '\n'
    else if c = '\n' then
      match rev with
      | [] => false
      | c2 :: rev2 => c2 = ')' && !rev2.contains '\n'
    else false

/-- Truth of `re.match(r'^\s*\(.*\)$', s)`: maximal leading whitespace, then an
opening parenthesis, then a newline-free body closed by `)` at the end of the
string (or just before a final newline). -/
def parenMatch (s : List Char) : Bool :=
  match s.dropWhile isPySpace with
  | [] => false
  | c :: rest => c = '(' && parenTail rest

/-- Lazy search for the closing parenthesis in `re.findall(r'\((.+?)\)', s)`:
after the forced first content character, the content extends to the first `')'`
and may not contain a newline.  Returns the captured content and the remainder
after the `')'`. -/
def scanClose : List Char → Option (List Char × List Char)
  | [] => none
  | c :: cs =>
    if c = ')' then some ([], cs)
    else if c = '\n' then none
    else
      match scanClose cs with
      | none => none
      | some (m, r) => some (c :: m, r)

/-- One attempted match of `\((.+?)\)` at an opening parenthesis: the content is
at least one character (`.+?`), newline-free, ending at the first usable `')'`. -/
def findClose : List Char → Option (List Char × List Char)
  | [] => none
  | c :: cs =>
    if c = '\n' then none
    else
      match scanClose cs with
      | none => none
      | some (m, r) => some (c :: m, r)

/-- Fuelled scan of `re.findall(r'\((.+?)\)', s)`: at each `'('` attempt a match;
on success resume after the closing parenthesis, on failure resume at the next
character.  Each step consumes at least one character, so fuel `s.length`
(used by `findGroups`) never runs out. -/
def findGroupsF : Nat → List Char → List (List Char)
  | 0, _ => []
  | _ + 1, [] => []
  | fuel + 1, c :: cs =>
    if c = '(' then
      match findClose cs with
      | some (m, r) => m :: findGroupsF fuel r
      | none => findGroupsF fuel cs
    else findGroupsF fuel cs

/-- Python `re.findall(r'\((.+?)\)', s)`. -/
def findGroups (s : List Char) : List (List Char) := findGroupsF s.length s

/-- A parsed cell: Python data at this layer is either a string or a (possibly
nested) list, exactly the two shapes `detect_data_form_and_convert` dispatches
on with `isinstance(prop, list)`. -/
inductive Value where
  | atom : List Char → Value
  | list : List Value → Value

mutual

def valueDecEq : (a b : Value) → Decidable (a = b)
  | .atom a, .atom b =>
      if h : a = b then .isTrue (by rw [h]) else .isFalse (fun hh => h (Value.atom.inj hh))
  | .atom _, .list _ => .isFalse (fun hh => Value.noConfusion hh)
  | .list _, .atom _ => .isFalse (fun hh => Value.noConfusion hh)
  | .list l, .list m =>
      match valueDecEqL l m with
      | .isTrue h => .isTrue (by rw [h])
      | .isFalse h => .isFalse (fun hh => h (Value.list.inj hh))

def valueDecEqL : (l m : List Value) → Decidable (l = m)
  | [], [] => .isTrue rfl
  | [], _ :: _ => .isFalse (fun hh => List.noConfusion hh)
  | _ :: _, [] => .isFalse (fun hh => List.noConfusion hh)
  | v :: vs, w :: ws =>
      match valueDecEq v w, valueDecEqL vs ws with
      | .isTrue h1, .isTrue h2 => .isTrue (by rw [h1, h2])
      | .isFalse h1, _ => .isFalse (fun hh => h1 (List.cons.inj hh).1)
      | _, .isFalse h2 => .isFalse (fun hh => h2 (List.cons.inj hh).2)

end

instance : DecidableEq Value := valueDecEq

instance {ε α : Type} [DecidableEq ε] [DecidableEq α] : DecidableEq (Except ε α)
  | .error a, .error b =>
      if h : a = b then .isTrue (by rw [h]) else .isFalse (fun hh => h (Except.error.inj hh))
  | .error _, .ok _ => .isFalse (fun hh => Except.noConfusion hh)
  | .ok _, .error _ => .isFalse (fun hh => Except.noConfusion hh)
  | .ok a, .ok b =>
      if h : a = b then .isTrue (by rw [h]) else .isFalse (fun hh => h (Except.ok.inj hh))

/-- Python exception kinds that the embedded fragment can raise. -/
inductive PyExn where
  | indexError
  | keyError
  | nameError
  | valueError
deriving DecidableEq

mutual

/-- Fuel measure for the recursion of `detect_data_form_and_convert`: every
recursive call strictly decreases it (proved in `dddcF_total`), so fuel
`vmeasureV v + 1` always suffices. -/
def vmeasureV : Value → Nat
  | .atom s => 4 * s.length
  | .list l => 1 + vmeasureL l

def vmeasureL : List Value → Nat
  | [] => 0
  | v :: vs => vmeasureV v + 1 + vmeasureL vs

end

mutual

/-- Fuelled embedding of `detect_data_form_and_convert`: pipe split, comma
split, parenthesis unwrap, whitespace split, in that order, with `strip` as the
base case.  `none` means the fuel ran out (never for fuel above `vmeasureV`,
by `dddcF_total`); `some (.error .indexError)` is the Python `IndexError` of
`surrounded_by_paren_list[0]` when `re.findall` returns no group. -/
def dddcF : Nat → Value → Option (Except PyExn Value)
  | 0, _ => none
  | fuel + 1, .list l =>
    match dddcLF fuel l with
    | none => none
    | some (.error e) => some (.error e)
    | some (.ok rs) => some (.ok (.list rs))
  | fuel + 1, .atom s =>
    let ps := splitD '|' s
    if 1 < ps.length then dddcF fuel (.list (ps.map .atom))
    else
      let cs := splitD ',' s
      if 1 < cs.length then dddcF fuel (.list (cs.map .atom))
      else if parenMatch s then
        let gs := findGroups s
        if 1 < gs.length then dddcF fuel (.list (gs.map .atom))
        else
          match gs with
          | [] => some (.error .indexError)
          | g :: _ => dddcF fuel (.atom g)
      else
        let ws := pySplitWs s
        if 1 < ws.length then dddcF fuel (.list (ws.map .atom))
        else some (.ok (.atom (pyStrip s)))

/-- The list comprehension `[detect_data_form_and_convert(p) for p in prop]`:
elementwise recursion, the first exception propagating out. -/
def dddcLF : Nat → List Value → Option (Except PyExn (List Value))
  | 0, _ => none
  | _ + 1, [] => some (.ok [])
  | fuel + 1, v :: vs =>
    match dddcF fuel v with
    | none => none
    | some (.error e) => some (.error e)
    | some (.ok r) =>
      match dddcLF fuel vs with
      | none => none
      | some (.error e) => some (.error e)
      | some (.ok rs) => some (.ok (r :: rs))

end

/-- `detect_data_form_and_convert` (core.py line 299): run the fuelled recursion
with sufficient fuel.  The `getD` default is unreachable by `dddcF_total`. -/
def detect_data_form_and_convert (v : Value) : Except PyExn Value :=
  (dddcF (vmeasureV v + 1) v).getD (.error .indexError)

/-- A Record: Python dict with string keys, modelled as an insertion-ordered
association list without duplicate keys. -/
abbrev RecordV : Type := List (List Char × Value)

/-- Python `d[k]` read on a dict (first, hence only, binding of the key). -/
def dictGet : RecordV → List Char → Option Value
  | [], _ => none
  | (k, v) :: rest, key => if k = key then some v else dictGet rest key

/-- Python `d[k] = v` on a dict: overwrite in place if the key is bound,
otherwise append at the end (insertion order). -/
def dictSet : RecordV → List Char → Value → RecordV
  | [], key, v => [(key, v)]
  | (k, w) :: rest, key, v =>
    if k = key then (k, v) :: rest else (k, w) :: dictSet rest key v

/-- The assignments `result[split_lines[0][j]] = prop` of a fresh (non
continuation) row in `detect_multirows_and_split`: every column of the row is
stored under the corresponding header key; a row longer than the header raises
`IndexError` on `split_lines[0][j]`. -/
def assignAll : List (List Char) → List (List Char) → RecordV → Except PyExn RecordV
  | _, [], d => .ok d
  | [], _ :: _, _ => .error .indexError
  | k :: ks, p :: ps, d => assignAll ks ps (dictSet d k (.atom p))

/-- Promotion of an existing value by a continuation row: a list gets the new
token appended, anything else becomes a two-element list. -/
def promote (old : Value) (p : List Char) : Value :=
  match old with
  | .list l => .list (l ++ [.atom p])
  | v => .list [v, .atom p]

/-- The continuation branch of `detect_multirows_and_split`: for every column
with a non-empty token, the value stored in the preceding record under that
header is promoted to a list and the token appended.  `split_lines[0][j]` is
only evaluated for non-empty tokens; a missing key is a `KeyError`. -/
def contAll : List (List Char) → List (List Char) → RecordV → Except PyExn RecordV
  | _, [], d => .ok d
  | [], p :: ps, d => if p = [] then contAll [] ps d else .error .indexError
  | k :: ks, p :: ps, d =>
    if p = [] then contAll ks ps d
    else
      match dictGet d k with
      | none => .error .keyError
      | some old => contAll ks ps (dictSet d k (promote old p))

/-- The row loop of `detect_multirows_and_split`.  A row with a non-empty first
field starts a new record; a row with an empty first field mutates the record
created last (the last list element).  If no record exists yet, the Python
variable `result` is unbound and touching it raises `NameError`
(`UnboundLocalError`); that only happens when some token of the row is
non-empty.  An empty row raises `IndexError` on `row[0]`. -/
def dmasGo (hdr : List (List Char)) : List RecordV → List (List (List Char)) → Except PyExn (List RecordV)
  | recs, [] => .ok recs
  | _, [] :: _ => .error .indexError
  | recs, (first :: rest) :: rows =>
    if first = [] then
      match recs.getLast? with
      | none =>
        if (first :: rest).all (fun p => p.isEmpty) then dmasGo hdr recs rows
        else .error .nameError
      | some r =>
        match contAll hdr (first :: rest) r with
        | .error e => .error e
        | .ok r2 => dmasGo hdr (recs.dropLast ++ [r2]) rows
    else
      match assignAll hdr (first :: rest) [] with
      | .error e => .error e
      | .ok r => dmasGo hdr (recs ++ [r]) rows

/-- `detect_multirows_and_split` (core.py line 329): the first split line is the
header, the rest are data rows merged into records. -/
def detect_multirows_and_split (split_lines : List (List (List Char))) : Except PyExn (List RecordV) :=
  match split_lines with
  | [] => .ok []
  | hdr :: rows => dmasGo hdr [] rows

/-- Number of columns of `zip(*list_of_lines)`: zero for no lines, otherwise the
length of the shortest line (Python `zip` truncates). -/
def numCols : List (List Char) → Nat
  | [] => 0
  | [l] => l.length
  | l :: ls => min l.length (numCols ls)

/-- `col.count(' ')` for column `i` of `zip(*list_of_lines)` (only used for
`i < numCols`, where every line has a character at `i`). -/
def spaceCountAt (ls : List (List Char)) (i : Nat) : Nat :=
  (ls.map (fun l => l.getD i ' ')).count ' '

/-- The list `transitions` of `detect_column_indexes`: per zipped column,
whether every line holds a space there. -/
def transitionsOf (ls : List (List Char)) : List Bool :=
  (List.range (numCols ls)).map (fun i => spaceCountAt ls i == ls.length)

/-- The index loop of `detect_column_indexes`: `i` is the current column index,
`last` the transition flag of the previous column (initially `False`). -/
def dciGo (hdr : List Char) : Nat → Bool → List Bool → List Nat
  | _, _, [] => []
  | i, last, x :: rest =>
    if !x && last && hdr.getD i ' ' != ' ' then i :: dciGo hdr (i + 1) x rest
    else dciGo hdr (i + 1) x rest

/-- `detect_column_indexes` (core.py line 345). -/
def detect_column_indexes (list_of_lines : List (List Char)) : List Nat :=
  0 :: dciGo (list_of_lines.headD []) 0 false (transitionsOf list_of_lines)

/-- Python slice `line[a:b]` for `a ≤ b` (clamped at the ends). -/
def pySlice (l : List Char) (a b : Nat) : List Char := (l.take b).drop a

/-- `split_line_by_indexes` (core.py line 364): slice the line at consecutive
boundary pairs, right-stripping each token; the last field runs to the end.
`indexes` is non-empty for every output of `detect_column_indexes`. -/
def split_line_by_indexes (indexes : List Nat) (line : List Char) : List (List Char) :=
  (indexes.zip indexes.tail).map (fun p => stripTrail (pySlice line p.1 p.2)) ++
    [stripTrail (line.drop (indexes.getLastD 0))]

/-- The dict comprehension of `_parse_output`: decompose every value of a
record, exceptions propagating in iteration order. -/
def convRecord : List (List Char × Value) → RecordV → Except PyExn RecordV
  | [], acc => .ok acc
  | (k, v) :: rest, acc =>
    match detect_data_form_and_convert v with
    | .error e => .error e
    | .ok v2 => convRecord rest (dictSet acc k v2)

/-- Decompose the values of every record in order. -/
def convRecords : List RecordV → Except PyExn (List RecordV)
  | [] => .ok []
  | r :: rs =>
    match convRecord r [] with
    | .error e => .error e
    | .ok r2 =>
      match convRecords rs with
      | .error e => .error e
      | .ok rs2 => .ok (r2 :: rs2)

/-- `IsotropySession._parse_output` (core.py line 290): infer column boundaries,
split every line, merge multi-row records, decompose every cell. -/
def parse_output (lines : List (List Char)) : Except PyExn (List RecordV) :=
  let indexes := detect_column_indexes lines
  let split_by_ind := lines.map (split_line_by_indexes indexes)
  match detect_multirows_and_split split_by_ind with
  | .error e => .error e
  | .ok recs => convRecords recs

/-- The three engine failure kinds detected by `read_iso_line`. -/
inductive IsoErr where
  | bombed
  | badBasis
  | badSubgroup
deriving DecidableEq

/-- One pattern character matched against one input character: a space in the
phrase stands for the regex class `\s`, everything else is literal.  This embeds
the patterns of `read_iso_line`, where every gap is written `\s` and all other
characters (including the escaped hyphen) are literals. -/
def phraseCharB (pc c : Char) : Bool :=
  if pc = ' ' then isPySpace c else pc = c

/-- Match a phrase against a prefix of the input. -/
def matchesAt : List Char → List Char → Bool
  | [], _ => true
  | _ :: _, [] => false
  | pc :: ps, c :: cs => phraseCharB pc c && matchesAt ps cs

/-- Truth of `re.match('.*P.*', line)`: the phrase occurs somewhere in the
line. -/
def containsPhrase (p : List Char) : List Char → Bool
  | [] => matchesAt p []
  | c :: cs => matchesAt p (c :: cs) || containsPhrase p cs

/-- `IsotropySession.read_iso_line` (core.py line 275) applied to one raw line:
strip trailing newlines, then test the three failure signatures in order;
otherwise the line is ordinary output. -/
def read_iso_line (raw : List Char) : Except IsoErr (List Char) :=
  let l := stripTrailNl raw
  if containsPhrase (str "program has bombed") l then .error .bombed
  else if containsPhrase (str "Basis vectors are not a right-handed set") l then .error .badBasis
  else if containsPhrase (str "not all elements of the subgroup are elements of parent group") l then
    .error .badSubgroup
  else .ok l

/-- Python `str.upper()` on ASCII strings. -/
def upper (l : List Char) : List Char := l.map Char.toUpper

/-- Lookup in the `Values._vals` dict. -/
def lookupVal : List (List Char × List Char) → List Char → Option (List Char)
  | [], _ => none
  | (k, v) :: rest, key => if k = key then some v else lookupVal rest key

/-- `dict[k] = v` on `Values._vals`. -/
def setVal : List (List Char × List Char) → List Char → List Char → List (List Char × List Char)
  | [], key, v => [(key, v)]
  | (k, w) :: rest, key, v =>
    if k = key then (k, v) :: rest else (k, w) :: setVal rest key v

/-- `del dict[k]` on `Values._vals`; `KeyError` when the key is absent. -/
def delVal : List (List Char × List Char) → List Char → Except PyExn (List (List Char × List Char))
  | [], _ => .error .keyError
  | (k, w) :: rest, key =>
    if k = key then .ok rest
    else
      match delVal rest key with
      | .error e => .error e
      | .ok rest2 => .ok ((k, w) :: rest2)

/-- `Values.__setitem__` (core.py line 94): uppercase the key; when the key is
unseen or its mirrored value differs, emit `VALUE key value` and store.
Returns the new mirror and the emitted commands. -/
def valuesSet (vals : List (List Char × List Char)) (key value : List Char) :
    List (List Char × List Char) × List (List Char) :=
  let k := upper key
  match lookupVal vals k with
  | none => (setVal vals k value, [str "VALUE " ++ k ++ str " " ++ value])
  | some w =>
    if w = value then (vals, [])
    else (setVal vals k value, [str "VALUE " ++ k ++ str " " ++ value])

/-- `Values.__delitem__` (core.py line 104): uppercase the key, emit
`CANCEL VALUE key` unconditionally, then delete — `KeyError` when absent. -/
def valuesDelete (vals : List (List Char × List Char)) (key : List Char) :
    Except PyExn (List (List Char × List Char)) × List (List Char) :=
  let k := upper key
  (delVal vals k, [str "CANCEL VALUE " ++ k])

/-- `Shows.add` (core.py line 60): uppercase; when unseen, emit `SHOW name` and
record it. -/
def showsAdd (shows : List (List Char)) (item : List Char) :
    List (List Char) × List (List Char) :=
  let i := upper item
  if i ∈ shows then (shows, []) else (shows ++ [i], [str "SHOW " ++ i])

/-- `Shows.discard` (core.py line 66): uppercase, then
`try: self._shows.remove(item); sendCommand(...) except ValueError: pass`.
Python `set.remove` raises `KeyError` (not `ValueError`) for an absent element,
so the handler around it is dead and the `KeyError` escapes. -/
def showsDiscard (shows : List (List Char)) (item : List Char) :
    Except PyExn (List (List Char) × List (List Char)) :=
  let i := upper item
  let attempt : Except PyExn (List (List Char) × List (List Char)) :=
    if i ∈ shows then .ok (shows.erase i, [str "CANCEL SHOW " ++ i])
    else .error .keyError
  match attempt with
  | .error .valueError => .ok (shows, [])
  | r => r

/-- The session state mirrored by `IsotropySession`: the `Values` dict, the
`Shows` set and the setting list. -/
structure SessionState where
  values : List (List Char × List Char)
  shows : List (List Char)
  setting : List (List Char)
deriving DecidableEq

/-- Observable actions of the session driver: a command written to the engine,
killing the process, and removing the scratch `*.iso` files. -/
inductive Event where
  | cmd : List Char → Event
  | kill : Event
  | removeIsoFiles : Event
deriving DecidableEq

/-- `Values.__init__` over an initial dict: replay every pair through
`__setitem__` (the key is uppercased once by the loop and once more inside). -/
def valuesInit (init : List (List Char × List Char)) :
    List (List Char × List Char) × List (List Char) :=
  init.foldl
    (fun acc kv =>
      let r := valuesSet acc.1 (upper kv.1) kv.2
      (r.1, acc.2 ++ r.2))
    ([], [])

/-- `Shows.__init__` over initial names: replay through `add`. -/
def showsInit (init : List (List Char)) : List (List Char) × List (List Char) :=
  init.foldl
    (fun acc i =>
      let r := showsAdd acc.1 (upper i)
      (r.1, acc.2 ++ r.2))
    ([], [])

/-- `IsotropySession.__init__` (core.py line 129), reduced to its emitted
commands and resulting mirror state: `SCREEN 999`, `PAGE 999`, one `SETTING`
per entry (`["INTERNATIONAL"]` when none is given), then the `Values` and
`Shows` replays. -/
def initSession (values : List (List Char × List Char)) (shows : List (List Char))
    (setting : List (List Char)) : SessionState × List Event :=
  let st := if setting.isEmpty then [str "INTERNATIONAL"] else setting
  let vi := valuesInit values
  let si := showsInit shows
  (⟨vi.1, si.1, st⟩,
    [.cmd (str "SCREEN 999"), .cmd (str "PAGE 999")] ++
      st.map (fun s => .cmd (str "SETTING " ++ s)) ++
      vi.2.map .cmd ++ si.2.map .cmd)

/-- `IsotropySession.restart_session` (core.py line 200): send `QUIT` (a
`BrokenPipeError` is caught and ignored — `quitBroken` tells whether the write
failed), kill the process, remove the scratch `*.iso` files, then run
`__init__` again with the previously held values, shows and setting list. -/
def restartSession (s : SessionState) (quitBroken : Bool) : SessionState × List Event :=
  let quitEvents : List Event := if quitBroken then [] else [.cmd (str "QUIT")]
  let ini := initSession s.values s.shows s.setting
  (ini.1, quitEvents ++ [.kill, .removeIsoFiles] ++ ini.2)

/-- Total character count of a list of tokens. -/
def sumLens (l : List (List Char)) : Nat := (l.map List.length).sum

/-- The record built by a fresh row: header keys paired with the row's cells. -/
def zipRecord (h m : List (List Char)) : RecordV :=
  (h.zip m).map (fun kv => (kv.1, Value.atom kv.2))

/-- A continuation row of width `n` contributing the single token `t` in
column `j`: empty in every other column. -/
def mkCont (n j : Nat) (t : List Char) : List (List Char) :=
  List.replicate j [] ++ t :: List.replicate (n - j - 1) []

/-- Specification-side reading of `.*P.*` matching: the phrase occurs somewhere
in the line, every space of the phrase standing for one whitespace character
(the regex class `\s`). -/
def OccursPhrase (p l : List Char) : Prop :=
  ∃ pre mid post, l = pre ++ mid ++ post ∧
    List.Forall₂ (fun pc c => phraseCharB pc c = true) p mid

/-- A string with no trailing whitespace. -/
def NoTrailWs (s : List Char) : Prop := stripTrail s = s

/-- Shape of every group content returned by `findGroups`: non-empty, and free
of `')'` after its first character. -/
def GoodContent (s : List Char) : Prop := s ≠ [] ∧ ∀ c ∈ s.tail, c ≠ ')'

/-- Claim C1, counterexample: on the block between the sentinels the pipeline
does not produce the two claimed records — the cell `|x,0,0|x,y,0|` pipe-splits
with a leading and a trailing empty piece (`re.split` keeps them), so the
second record's `k vector` is not the claimed two-element list. -/
theorem claim1_counterexample :
    parse_output [str "Irrep   k vector", str "GM1+    0,0,0", str "GM2-    |x,0,0|x,y,0|"] ≠
      .ok [[(str "Irrep", .atom (str "GM1+")),
            (str "k vector", .list [.atom (str "0"), .atom (str "0"), .atom (str "0")])],
           [(str "Irrep", .atom (str "GM2-")),
            (str "k vector",
             .list [.list [.atom (str "x"), .atom (str "0"), .atom (str "0")],
                    .list [.atom (str "x"), .atom (str "y"), .atom (str "0")]])]] := by
  decide

/-- Claim C1 (amended): the pipeline yields exactly two records,
`{"Irrep": "GM1+", "k vector": ["0","0","0"]}` and
`{"Irrep": "GM2-", "k vector": ["", ["x","0","0"], ["x","y","0"], ""]}` — the
leading and trailing pipes of the cell contribute empty-string atoms. -/
theorem claim1_theorem :
    parse_output [str "Irrep   k vector", str "GM1+    0,0,0", str "GM2-    |x,0,0|x,y,0|"] =
      .ok [[(str "Irrep", .atom (str "GM1+")),
            (str "k vector", .list [.atom (str "0"), .atom (str "0"), .atom (str "0")])],
           [(str "Irrep", .atom (str "GM2-")),
            (str "k vector",
             .list [.atom [],
                    .list [.atom (str "x"), .atom (str "0"), .atom (str "0")],
                    .list [.atom (str "x"), .atom (str "y"), .atom (str "0")],
                    .atom []])]] := by
  decide

/-- Claim C3: the decomposition precedence pipe, comma, parenthesis, whitespace
on the three specified inputs: `"A | B,C"` gives `["A", ["B","C"]]`,
`"(1,2) (3,4)"` gives `[["1","2"],["3","4"]]`, `"alone"` stays an atom. -/
theorem claim3_theorem :
    detect_data_form_and_convert (.atom (str "A | B,C")) =
      .ok (.list [.atom (str "A"), .list [.atom (str "B"), .atom (str "C")]]) ∧
    detect_data_form_and_convert (.atom (str "(1,2) (3,4)")) =
      .ok (.list [.list [.atom (str "1"), .atom (str "2")],
                  .list [.atom (str "3"), .atom (str "4")]]) ∧
    detect_data_form_and_convert (.atom (str "alone")) = .ok (.atom (str "alone")) := by
  refine ⟨by decide, by decide, by decide⟩

/-- Claim C5 (code bug): `Values.__delitem__` on an absent key does fail with
`KeyError` as the spec says, but `Shows.discard` on an absent name raises
`KeyError` as well instead of being a no-op — Python `set.remove` raises
`KeyError`, which the surrounding `except ValueError` handler does not catch. -/
theorem claim5_theorem :
    showsDiscard [] (str "nonexistent") = .error .keyError ∧
    (valuesDelete [] (str "nonexistent")).1 = .error .keyError := by
  refine ⟨by decide, by decide⟩

/-- Claim C2, counterexample: one continuation row (`K = 1`) contributing the
token `m1` to field `B` leaves a two-element list under `B` — the fresh row's
own value `m0` is kept as the first element, so the merged list has `K + 1`
elements, not `K`. -/
theorem claim2_counterexample :
    detect_multirows_and_split [[str "A", str "B"], [str "x", str "m0"], [[], str "m1"]] =
      .ok [[(str "A", .atom (str "x")),
            (str "B", .list [.atom (str "m0"), .atom (str "m1")])]] ∧
    [Value.atom (str "m0"), .atom (str "m1")].length ≠ 1 := by
  refine ⟨by decide, by decide⟩

/-- Claim C4, counterexample: on the block `["A B", "C D"]` the code records a
boundary at index 2, although column 2 (holding `B` and `D`) has space-count 0,
different from the number of lines — under the claim's reading of "transition"
(space-count not equal to the number of lines) column 2 is a transition and so
could not be a boundary. -/
theorem claim4_counterexample :
    2 ∈ detect_column_indexes [str "A B", str "C D"] ∧
    spaceCountAt [str "A B", str "C D"] 2 ≠ [str "A B", str "C D"].length := by
  refine ⟨by decide, by decide⟩

/-- Claim C6, counterexample: the basis-failure signature is matched
case-sensitively (`Basis` is capitalized in the pattern), so the all-lowercase
line is returned as ordinary output rather than failing with the basis error. -/
theorem claim6_counterexample :
    read_iso_line (str "basis vectors are not a right-handed set") =
      .ok (str "basis vectors are not a right-handed set") := by
  decide

/-- Claim C8, counterexample: decomposing `"(a) "` yields the leaf atom `"(a)"`
(the trailing space defeats the parenthesis regex, and the base case strips it),
but re-applying decomposition to that leaf unwraps the parentheses and yields
`"a"` — so re-application to an already-decomposed leaf is not the identity. -/
theorem claim8_counterexample :
    detect_data_form_and_convert (.atom (str "(a) ")) = .ok (.atom (str "(a)")) ∧
    detect_data_form_and_convert (.atom (str "(a)")) = .ok (.atom (str "a")) ∧
    Value.atom (str "a") ≠ .atom (str "(a)") := by
  refine ⟨by decide, by decide, by decide⟩

/-- Claim C10: a block whose first data row has an empty first field and at
least one non-empty token makes `detect_multirows_and_split` fail — the
continuation branch reads the Python variable `result`, which was never
assigned, raising `UnboundLocalError`. -/
theorem claim10_theorem (hdr : List (List Char)) (row : List (List Char))
    (rest : List (List (List Char))) (h1 : row.head? = some [])
    (h2 : ∃ p ∈ row, p ≠ []) :
    detect_multirows_and_split (hdr :: row :: rest) = .error .nameError := by
  match row, h1 with
  | [] :: r, _ =>
    have hall : ((([] : List Char) :: r).all (fun p => p.isEmpty)) = false := by
      rcases h2 with ⟨p, hp, hne⟩
      refine List.all_eq_false.mpr ⟨p, hp, ?_⟩
      simpa [List.isEmpty_iff] using hne
    simp [detect_multirows_and_split, dmasGo, hall]

/-- Witness for C10 at a concrete block. -/
theorem claim10_witness :
    detect_multirows_and_split [[str "A", str "B"], [[], str "x"]] = .error .nameError :=
  claim10_theorem [str "A", str "B"] [[], str "x"] [] rfl ⟨str "x", by decide⟩

theorem lookupVal_setVal_self (d : List (List Char × List Char)) (k v : List Char) :
    lookupVal (setVal d k v) k = some v := by
  induction d with
  | nil => simp [setVal, lookupVal]
  | cons kv rest ih =>
    by_cases h : kv.1 = k
    · simp [setVal, lookupVal, h]
    · simp [setVal, lookupVal, h, ih]

/-- Claim C7: setting the same value under two keys that differ only in letter
case (so have the same uppercasing) emits exactly one `VALUE` command when the
key was unseen; the second call changes neither the mirror nor the command
stream. -/
theorem claim7_theorem (vals : List (List Char × List Char)) (k1 k2 v : List Char)
    (hk : upper k1 = upper k2) (habs : lookupVal vals (upper k1) = none) :
    (valuesSet vals k1 v).2 = [str "VALUE " ++ upper k1 ++ str " " ++ v] ∧
    valuesSet (valuesSet vals k1 v).1 k2 v = ((valuesSet vals k1 v).1, []) := by
  have h1 : valuesSet vals k1 v =
      (setVal vals (upper k1) v, [str "VALUE " ++ upper k1 ++ str " " ++ v]) := by
    simp [valuesSet, habs]
  refine ⟨by rw [h1], ?_⟩
  rw [h1]
  have h2 : lookupVal (setVal vals (upper k1) v) (upper k2) = some v := by
    rw [← hk]; exact lookupVal_setVal_self vals (upper k1) v
  simp [valuesSet, h2]

/-- Witness for C7: `set("irrep", "GM1+")` then `set("IRREP", "GM1+")` on an
empty mirror. -/
theorem claim7_witness :
    (valuesSet [] (str "irrep") (str "GM1+")).2 =
      [str "VALUE " ++ upper (str "irrep") ++ str " " ++ str "GM1+"] ∧
    valuesSet (valuesSet [] (str "irrep") (str "GM1+")).1 (str "IRREP") (str "GM1+") =
      ((valuesSet [] (str "irrep") (str "GM1+")).1, []) :=
  claim7_theorem [] (str "irrep") (str "IRREP") (str "GM1+") (by decide) rfl

theorem setVal_absent (d : List (List Char × List Char)) (k v : List Char)
    (h : lookupVal d k = none) : setVal d k v = d ++ [(k, v)] := by
  induction d with
  | nil => rfl
  | cons kv rest ih =>
    by_cases hk : kv.1 = k
    · simp [lookupVal, hk] at h
    · simp only [lookupVal, if_neg hk] at h
      simp [setVal, hk, ih h]

theorem lookupVal_append_none (d e : List (List Char × List Char)) (k : List Char)
    (h : lookupVal d k = none) : lookupVal (d ++ e) k = lookupVal e k := by
  induction d with
  | nil => rfl
  | cons kv rest ih =>
    by_cases hk : kv.1 = k
    · simp [lookupVal, hk] at h
    · simp only [lookupVal, if_neg hk] at h
      simp [lookupVal, hk, ih h]

theorem upper_upper (k : List Char) (h : upper k = k) : upper (upper k) = upper k := by
  rw [h, h]

theorem valuesInit_go (init : List (List Char × List Char)) :
    ∀ (acc1 : List (List Char × List Char)) (acc2 : List (List Char)),
    (∀ kv ∈ init, upper kv.1 = kv.1) → (init.map Prod.fst).Nodup →
    (∀ kv ∈ init, lookupVal acc1 kv.1 = none) →
    init.foldl
      (fun acc kv =>
        let r := valuesSet acc.1 (upper kv.1) kv.2
        (r.1, acc.2 ++ r.2)) (acc1, acc2) =
      (acc1 ++ init,
       acc2 ++ init.map (fun kv => str "VALUE " ++ kv.1 ++ str " " ++ kv.2)) := by
  induction init with
  | nil => intro acc1 acc2 _ _ _; simp
  | cons kv rest ih =>
    intro acc1 acc2 hup hnd habs
    have hupk : upper kv.1 = kv.1 := hup kv (List.mem_cons_self kv rest)
    have hstep : valuesSet acc1 (upper kv.1) kv.2 =
        (acc1 ++ [(kv.1, kv.2)], [str "VALUE " ++ kv.1 ++ str " " ++ kv.2]) := by
      have habs1 : lookupVal acc1 kv.1 = none := habs kv (List.mem_cons_self kv rest)
      simp only [valuesSet, upper_upper kv.1 hupk, hupk, habs1]
      rw [setVal_absent acc1 kv.1 kv.2 habs1]
    simp only [List.foldl_cons, hstep]
    have hrest : ∀ kv2 ∈ rest, lookupVal (acc1 ++ [(kv.1, kv.2)]) kv2.1 = none := by
      intro kv2 hm
      rw [lookupVal_append_none _ _ _ (habs kv2 (List.mem_cons_of_mem kv hm))]
      have hne : kv2.1 ≠ kv.1 := by
        intro he
        have : kv.1 ∈ rest.map Prod.fst := he ▸ List.mem_map_of_mem Prod.fst hm
        exact (List.nodup_cons.mp hnd).1 this
      have hne2 : ¬(kv.1 = kv2.1) := fun he => hne he.symm
      simp [lookupVal, hne2]
    have := ih (acc1 ++ [(kv.1, kv.2)]) (acc2 ++ [str "VALUE " ++ kv.1 ++ str " " ++ kv.2])
      (fun kv2 hm => hup kv2 (List.mem_cons_of_mem kv hm))
      (List.nodup_cons.mp hnd).2 hrest
    rw [this]
    simp

theorem showsInit_go (init : List (List Char)) :
    ∀ (acc1 : List (List Char)) (acc2 : List (List Char)),
    (∀ n ∈ init, upper n = n) → init.Nodup → (∀ n ∈ init, n ∉ acc1) →
    init.foldl
      (fun acc i =>
        let r := showsAdd acc.1 (upper i)
        (r.1, acc.2 ++ r.2)) (acc1, acc2) =
      (acc1 ++ init, acc2 ++ init.map (fun n => str "SHOW " ++ n)) := by
  induction init with
  | nil => intro acc1 acc2 _ _ _; simp
  | cons n rest ih =>
    intro acc1 acc2 hup hnd habs
    have hupn : upper n = n := hup n (List.mem_cons_self n rest)
    have hstep : showsAdd acc1 (upper n) = (acc1 ++ [n], [str "SHOW " ++ n]) := by
      simp only [showsAdd, upper_upper n hupn, hupn]
      rw [if_neg (habs n (List.mem_cons_self n rest))]
    simp only [List.foldl_cons, hstep]
    have hrest : ∀ n2 ∈ rest, n2 ∉ acc1 ++ [n] := by
      intro n2 hm hin
      rcases List.mem_append.mp hin with h1 | h1
      · exact habs n2 (List.mem_cons_of_mem n hm) h1
      · have : n2 = n := List.mem_singleton.mp h1
        exact (List.nodup_cons.mp hnd).1 (this ▸ hm)
    have := ih (acc1 ++ [n]) (acc2 ++ [str "SHOW " ++ n])
      (fun n2 hm => hup n2 (List.mem_cons_of_mem n hm))
      (List.nodup_cons.mp hnd).2 hrest
    rw [this]
    simp

/-- Claim C9: on restart the driver sends `QUIT` (skipping it silently when the
pipe is broken — the rest is unchanged), kills the process, removes the scratch
`*.iso` files, and re-enters initialization with the previously held values,
shows and setting list preserved, so that every previously mirrored value and
show (and setting) is re-sent to the fresh engine.  The hypotheses are the
mirror invariants: keys are stored uppercased and without duplicates, and the
setting list is never empty. -/
theorem claim9_theorem (s : SessionState) (bp : Bool)
    (hkeys : ∀ kv ∈ s.values, upper kv.1 = kv.1)
    (hnodup : (s.values.map Prod.fst).Nodup)
    (hshows : ∀ n ∈ s.shows, upper n = n)
    (hsnodup : s.shows.Nodup)
    (hset : s.setting ≠ []) :
    (restartSession s bp).1 = s ∧
    (restartSession s false).2 = .cmd (str "QUIT") :: (restartSession s true).2 ∧
    Event.kill ∈ (restartSession s bp).2 ∧
    Event.removeIsoFiles ∈ (restartSession s bp).2 ∧
    (∀ kv ∈ s.values,
      Event.cmd (str "VALUE " ++ kv.1 ++ str " " ++ kv.2) ∈ (restartSession s bp).2) ∧
    (∀ n ∈ s.shows, Event.cmd (str "SHOW " ++ n) ∈ (restartSession s bp).2) ∧
    (∀ t ∈ s.setting, Event.cmd (str "SETTING " ++ t) ∈ (restartSession s bp).2) := by
  have hvi : valuesInit s.values =
      (s.values, s.values.map (fun kv => str "VALUE " ++ kv.1 ++ str " " ++ kv.2)) := by
    have := valuesInit_go s.values [] [] hkeys hnodup (fun kv _ => rfl)
    simpa [valuesInit] using this
  have hsi : showsInit s.shows = (s.shows, s.shows.map (fun n => str "SHOW " ++ n)) := by
    have := showsInit_go s.shows [] [] hshows hsnodup (fun n _ h => (List.not_mem_nil n) h)
    simpa [showsInit] using this
  have hst : (if s.setting.isEmpty then [str "INTERNATIONAL"] else s.setting) = s.setting := by
    rw [if_neg (by simpa [List.isEmpty_iff] using hset)]
  have hini : initSession s.values s.shows s.setting =
      (s, [Event.cmd (str "SCREEN 999"), Event.cmd (str "PAGE 999")] ++
        s.setting.map (fun t => Event.cmd (str "SETTING " ++ t)) ++
        (s.values.map (fun kv => str "VALUE " ++ kv.1 ++ str " " ++ kv.2)).map Event.cmd ++
        (s.shows.map (fun n => str "SHOW " ++ n)).map Event.cmd) := by
    simp only [initSession, hvi, hsi, hst]
  refine ⟨by simp [restartSession, hini], by simp [restartSession], ?_, ?_, ?_, ?_, ?_⟩
  · simp [restartSession, hini]
  · simp [restartSession, hini]
  · intro kv hm
    have hmm : Event.cmd (str "VALUE " ++ kv.1 ++ str " " ++ kv.2) ∈
        (s.values.map (fun kv => str "VALUE " ++ kv.1 ++ str " " ++ kv.2)).map Event.cmd :=
      List.mem_map_of_mem Event.cmd (List.mem_map_of_mem _ hm)
    simp only [restartSession, hini, List.mem_append]
    tauto
  · intro n hm
    have hmm : Event.cmd (str "SHOW " ++ n) ∈
        (s.shows.map (fun n => str "SHOW " ++ n)).map Event.cmd :=
      List.mem_map_of_mem Event.cmd (List.mem_map_of_mem _ hm)
    simp only [restartSession, hini, List.mem_append]
    tauto
  · intro t hm
    have hmm : Event.cmd (str "SETTING " ++ t) ∈
        s.setting.map (fun t => Event.cmd (str "SETTING " ++ t)) :=
      List.mem_map_of_mem _ hm
    simp only [restartSession, hini, List.mem_append]
    tauto

/-- Witness for C9 at a concrete state with one mirrored value, one show and
one setting, with the `QUIT` write failing (broken pipe ignored). -/
theorem claim9_witness :
    (restartSession ⟨[(str "IRREP", str "GM1+")], [str "ELEMENTS"], [str "INTERNATIONAL"]⟩ true).1 =
      ⟨[(str "IRREP", str "GM1+")], [str "ELEMENTS"], [str "INTERNATIONAL"]⟩ ∧
    Event.cmd (str "VALUE " ++ str "IRREP" ++ str " " ++ str "GM1+") ∈
      (restartSession ⟨[(str "IRREP", str "GM1+")], [str "ELEMENTS"], [str "INTERNATIONAL"]⟩ true).2 ∧
    Event.cmd (str "SHOW " ++ str "ELEMENTS") ∈
      (restartSession ⟨[(str "IRREP", str "GM1+")], [str "ELEMENTS"], [str "INTERNATIONAL"]⟩ true).2 := by
  have h := claim9_theorem
    ⟨[(str "IRREP", str "GM1+")], [str "ELEMENTS"], [str "INTERNATIONAL"]⟩ true
    (by decide) (by decide) (by decide) (by decide) (by decide)
  exact ⟨h.1, h.2.2.2.2.1 (str "IRREP", str "GM1+") (by decide),
    h.2.2.2.2.2.1 (str "ELEMENTS") (by decide)⟩

theorem dciGo_mem (hdr : List Char) (ts : List Bool) :
    ∀ (k : Nat) (last : Bool) (i : Nat),
      i ∈ dciGo hdr k last ts ↔
        ∃ j, j < ts.length ∧ i = k + j ∧ ts.getD j true = false ∧
          (last :: ts).getD j true = true ∧ ¬ hdr.getD i ' ' = ' ' := by
  induction ts with
  | nil => intro k last i; simp [dciGo]
  | cons x rest ih =>
    intro k last i
    have hrec := ih (k + 1) x i
    simp only [dciGo]
    by_cases hc : (!x && last && (hdr.getD k ' ' != ' ')) = true
    · rw [if_pos hc]
      obtain ⟨⟨hx, hl⟩, hh⟩ : (x = false ∧ last = true) ∧ ¬ hdr.getD k ' ' = ' ' := by
        simpa [Bool.and_eq_true, Bool.not_eq_true', bne_iff_ne] using hc
      simp only [List.mem_cons, hrec]
      constructor
      · rintro (rfl | ⟨j2, hj2, rfl, h3, h4, h5⟩)
        · exact ⟨0, by simp, by omega, by simpa using hx, by simpa using hl, hh⟩
        · exact ⟨j2 + 1, by simpa using hj2, by omega, by simpa using h3,
            by simpa using h4, h5⟩
      · rintro ⟨j, hj, rfl, h3, h4, h5⟩
        cases j with
        | zero => left; omega
        | succ j2 =>
          right
          exact ⟨j2, by simpa using hj, by omega, by simpa using h3, by simpa using h4, h5⟩
    · rw [if_neg hc]
      rw [hrec]
      constructor
      · rintro ⟨j2, hj2, rfl, h3, h4, h5⟩
        exact ⟨j2 + 1, by simpa using hj2, by omega, by simpa using h3,
          by simpa using h4, h5⟩
      · rintro ⟨j, hj, rfl, h3, h4, h5⟩
        cases j with
        | zero =>
          exfalso
          apply hc
          simp only [List.getD_cons_zero] at h3 h4
          simp only [Nat.add_zero] at h5
          simpa [h3, h4, bne_iff_ne] using h5
        | succ j2 =>
          exact ⟨j2, by simpa using hj, by omega, by simpa using h3, by simpa using h4, h5⟩

theorem transitionsOf_length (ls : List (List Char)) :
    (transitionsOf ls).length = numCols ls := by
  simp [transitionsOf]

theorem transitionsOf_getD (ls : List (List Char)) (j : Nat) (h : j < numCols ls) :
    (transitionsOf ls).getD j true = (spaceCountAt ls j == ls.length) := by
  simp [transitionsOf, List.getD_eq_getElem?_getD, List.getElem?_map, List.getElem?_range, h]

/-- Claim C4 (amended): a column is a "transition" exactly when its space-count
over all zipped lines EQUALS the number of lines (the column is blank
everywhere); a boundary is recorded at `i` exactly when column `i` is not a
transition, column `i - 1` was one, and the header's character at `i` is not a
space; and the boundary sequence always begins with index 0. -/
theorem claim4_theorem (ls : List (List Char)) (i : Nat) :
    (i ∈ detect_column_indexes ls ↔
      i = 0 ∨ (0 < i ∧ i < numCols ls ∧
        ¬ spaceCountAt ls i = ls.length ∧ spaceCountAt ls (i - 1) = ls.length ∧
        ¬ (ls.headD []).getD i ' ' = ' ')) ∧
    (detect_column_indexes ls).head? = some 0 := by
  refine ⟨?_, rfl⟩
  simp only [detect_column_indexes, List.mem_cons]
  rw [dciGo_mem]
  constructor
  · rintro (rfl | ⟨j, hj, rfl, h3, h4, h5⟩)
    · left; rfl
    · right
      rw [transitionsOf_length] at hj
      simp only [Nat.zero_add] at h5 ⊢
      cases j with
      | zero => simp at h4
      | succ j2 =>
        refine ⟨by omega, by omega, ?_, ?_, h5⟩
        · have := transitionsOf_getD ls (j2 + 1) (by omega)
          rw [this] at h3
          simpa [beq_eq_false_iff_ne] using h3
        · have hj2 : j2 < numCols ls := by omega
          have := transitionsOf_getD ls j2 hj2
          simp only [List.getD_cons_succ] at h4
          rw [this] at h4
          simpa using h4
  · rintro (rfl | ⟨h0, hlt, h3, h4, h5⟩)
    · left; rfl
    · right
      refine ⟨i, by rw [transitionsOf_length]; omega, by omega, ?_, ?_, by simpa using h5⟩
      · rw [transitionsOf_getD ls i hlt]
        simpa [beq_eq_false_iff_ne] using h3
      · cases i with
        | zero => omega
        | succ i2 =>
          simp only [List.getD_cons_succ]
          rw [transitionsOf_getD ls i2 (by omega)]
          simpa using h4

theorem dictGet_dictSet_self (d : RecordV) (k : List Char) (v : Value) :
    dictGet (dictSet d k v) k = some v := by
  induction d with
  | nil => simp [dictSet, dictGet]
  | cons kv rest ih =>
    obtain ⟨k1, v1⟩ := kv
    by_cases hk : k1 = k
    · simp [dictSet, dictGet, hk]
    · simp [dictSet, dictGet, hk, ih]

theorem dictSet_dictSet_same (d : RecordV) (k : List Char) (v w : Value) :
    dictSet (dictSet d k v) k w = dictSet d k w := by
  induction d with
  | nil => simp [dictSet]
  | cons kv rest ih =>
    obtain ⟨k1, v1⟩ := kv
    by_cases hk : k1 = k
    · simp [dictSet, hk]
    · simp [dictSet, hk, ih]

theorem dictSet_of_get (d : RecordV) (k : List Char) (v : Value)
    (h : dictGet d k = some v) : dictSet d k v = d := by
  induction d with
  | nil => simp [dictGet] at h
  | cons kv rest ih =>
    obtain ⟨k1, v1⟩ := kv
    by_cases hk : k1 = k
    · simp only [dictGet, if_pos hk] at h
      simp [dictSet, hk, Option.some.inj h]
    · simp only [dictGet, if_neg hk] at h
      simp [dictSet, hk, ih h]

theorem dictSet_absent (d : RecordV) (k : List Char) (v : Value)
    (h : dictGet d k = none) : dictSet d k v = d ++ [(k, v)] := by
  induction d with
  | nil => rfl
  | cons kv rest ih =>
    obtain ⟨k1, v1⟩ := kv
    by_cases hk : k1 = k
    · simp [dictGet, hk] at h
    · simp only [dictGet, if_neg hk] at h
      simp [dictSet, hk, ih h]

theorem dictGet_append_none (d e : RecordV) (k : List Char)
    (h : dictGet d k = none) : dictGet (d ++ e) k = dictGet e k := by
  induction d with
  | nil => rfl
  | cons kv rest ih =>
    obtain ⟨k1, v1⟩ := kv
    by_cases hk : k1 = k
    · simp [dictGet, hk] at h
    · simp only [dictGet, if_neg hk] at h
      simp [dictGet, hk, ih h]

theorem assignAll_eq (h : List (List Char)) :
    ∀ (m : List (List Char)) (d : RecordV),
    h.Nodup → m.length = h.length → (∀ k ∈ h, dictGet d k = none) →
    assignAll h m d = .ok (d ++ zipRecord h m) := by
  induction h with
  | nil =>
    intro m d _ hlen _
    have hm : m = [] := List.length_eq_zero.mp (by simpa using hlen)
    subst hm
    simp [assignAll, zipRecord]
  | cons k ks ih =>
    intro m d hnd hlen habs
    cases m with
    | nil => simp at hlen
    | cons p ps =>
      simp only [assignAll]
      rw [dictSet_absent d k _ (habs k (List.mem_cons_self k ks))]
      have habs2 : ∀ k2 ∈ ks, dictGet (d ++ [(k, Value.atom p)]) k2 = none := by
        intro k2 hm
        rw [dictGet_append_none _ _ _ (habs k2 (List.mem_cons_of_mem k hm))]
        have hne : ¬(k = k2) := fun he => (List.nodup_cons.mp hnd).1 (he ▸ hm)
        simp [dictGet, hne]
      rw [ih ps (d ++ [(k, Value.atom p)]) (List.nodup_cons.mp hnd).2
        (by simpa using hlen) habs2]
      simp [zipRecord, List.append_assoc]

theorem getD_mem_lt (l : List (List Char)) :
    ∀ (j : Nat), j < l.length → l.getD j [] ∈ l := by
  induction l with
  | nil => intro j hj; simp at hj
  | cons a l2 ih =>
    intro j hj
    cases j with
    | zero => simp
    | succ j2 => exact List.mem_cons_of_mem a (ih j2 (by simpa using hj))

theorem dictGet_zipRecord (h : List (List Char)) :
    ∀ (m : List (List Char)) (j : Nat),
    h.Nodup → j < h.length → m.length = h.length →
    dictGet (zipRecord h m) (h.getD j []) = some (.atom (m.getD j [])) := by
  induction h with
  | nil => intro m j _ hj _; simp at hj
  | cons k ks ih =>
    intro m j hnd hj hlen
    cases m with
    | nil => simp at hlen
    | cons p ps =>
      cases j with
      | zero => simp [zipRecord, dictGet]
      | succ j2 =>
        have hj2 : j2 < ks.length := by simpa using hj
        have hne : ¬(k = ks.getD j2 []) := by
          intro he
          exact (List.nodup_cons.mp hnd).1 (he ▸ getD_mem_lt ks j2 hj2)
        simp only [zipRecord, List.zip_cons_cons, List.map_cons, dictGet,
          List.getD_cons_succ]
        rw [if_neg hne]
        exact ih ps j2 (List.nodup_cons.mp hnd).2 hj2 (by simpa using hlen)

theorem contAll_replicate (q : Nat) : ∀ (ks : List (List Char)) (d : RecordV),
    contAll ks (List.replicate q []) d = .ok d := by
  induction q with
  | zero => intro ks d; cases ks <;> rfl
  | succ q2 ih =>
    intro ks d
    cases ks with
    | nil => simp [List.replicate_succ, contAll, ih]
    | cons k ks2 => simp [List.replicate_succ, contAll, ih]

theorem contAll_skip (j : Nat) : ∀ (ks rest : List (List Char)) (d : RecordV),
    j ≤ ks.length →
    contAll ks (List.replicate j [] ++ rest) d = contAll (ks.drop j) rest d := by
  induction j with
  | zero => intro ks rest d _; simp
  | succ j2 ih =>
    intro ks rest d hle
    cases ks with
    | nil => simp at hle
    | cons k ks2 =>
      simp only [List.replicate_succ, List.cons_append, contAll]
      rw [if_pos trivial]
      simpa using ih ks2 rest d (by simpa using hle)

theorem drop_eq_getD_cons (l : List (List Char)) :
    ∀ (j : Nat), j < l.length → l.drop j = l.getD j [] :: l.drop (j + 1) := by
  induction l with
  | nil => intro j h; simp at h
  | cons a l2 ih =>
    intro j h
    cases j with
    | zero => simp
    | succ j2 => simpa using ih j2 (by simpa using h)

theorem contAll_at (ks : List (List Char)) (j : Nat) (t : List Char) (q : Nat)
    (d : RecordV) (old : Value) (hj : j < ks.length) (ht : t ≠ [])
    (hget : dictGet d (ks.getD j []) = some old) :
    contAll ks (List.replicate j [] ++ t :: List.replicate q []) d =
      .ok (dictSet d (ks.getD j []) (promote old t)) := by
  rw [contAll_skip j ks _ d (Nat.le_of_lt hj)]
  rw [drop_eq_getD_cons ks j hj]
  simp only [contAll]
  rw [if_neg ht, hget]
  exact contAll_replicate q _ _

theorem dmasGo_cont_step (h : List (List Char)) (j : Nat) (t : List Char)
    (pre : List RecordV) (R : RecordV) (old : Value) (rows : List (List (List Char)))
    (hj0 : 0 < j) (hj : j < h.length) (ht : t ≠ [])
    (hget : dictGet R (h.getD j []) = some old) :
    dmasGo h (pre ++ [R]) (mkCont h.length j t :: rows) =
      dmasGo h (pre ++ [dictSet R (h.getD j []) (promote old t)]) rows := by
  obtain ⟨j2, rfl⟩ : ∃ j2, j = j2 + 1 := ⟨j - 1, by omega⟩
  have hca : contAll h (List.replicate (j2 + 1) [] ++ t ::
      List.replicate (h.length - (j2 + 1) - 1) []) R =
      .ok (dictSet R (h.getD (j2 + 1) []) (promote old t)) :=
    contAll_at h (j2 + 1) t _ R old hj ht hget
  have hrow : mkCont h.length (j2 + 1) t =
      ([] : List Char) :: (List.replicate j2 [] ++ t ::
        List.replicate (h.length - (j2 + 1) - 1) []) := by
    simp [mkCont, List.replicate_succ]
  rw [hrow]
  simp only [dmasGo]
  rw [if_pos trivial, List.getLast?_concat]
  rw [show (([] : List Char) :: (List.replicate j2 [] ++ t ::
      List.replicate (h.length - (j2 + 1) - 1) [])) =
    List.replicate (j2 + 1) [] ++ t :: List.replicate (h.length - (j2 + 1) - 1) [] from by
      simp [List.replicate_succ]]
  simp only [hca, List.dropLast_concat]

theorem dmasGo_chain (h : List (List Char)) (j : Nat) (hj0 : 0 < j) (hj : j < h.length) :
    ∀ (ts : List (List Char)) (pre : List RecordV) (R : RecordV) (vs : List Value),
    (∀ t ∈ ts, t ≠ []) → dictGet R (h.getD j []) = some (.list vs) →
    dmasGo h (pre ++ [R]) (ts.map (mkCont h.length j)) =
      .ok (pre ++ [dictSet R (h.getD j []) (.list (vs ++ ts.map .atom))]) := by
  intro ts
  induction ts with
  | nil =>
    intro pre R vs _ hget
    simp only [List.map_nil, dmasGo, List.append_nil]
    rw [dictSet_of_get R _ _ hget]
  | cons t ts2 ih =>
    intro pre R vs hts hget
    simp only [List.map_cons]
    rw [dmasGo_cont_step h j t pre R (.list vs) (ts2.map (mkCont h.length j)) hj0 hj
      (hts t (List.mem_cons_self t ts2)) hget]
    have hstep := ih pre (dictSet R (h.getD j []) (promote (.list vs) t))
      (vs ++ [.atom t]) (fun t2 hm => hts t2 (List.mem_cons_of_mem t hm))
      (by simp [promote, dictGet_dictSet_self])
    simp only [promote] at hstep ⊢
    rw [hstep, dictSet_dictSet_same]
    simp

/-- Claim C2 (amended): merging `K` continuation rows, each contributing one
non-empty token in column `j` (field `F = header[j]`), onto the record started
by the preceding fresh row yields under `F` a list of exactly `K + 1` elements:
the record's own cell at `F` followed by the `K` contributed tokens in row
order. -/
theorem claim2_theorem (h m : List (List Char)) (j : Nat) (ts : List (List Char))
    (hnd : h.Nodup) (hlen : m.length = h.length) (hm0 : m.headD [] ≠ [])
    (hj0 : 0 < j) (hj : j < h.length) (hts : ∀ t ∈ ts, t ≠ []) (htsne : ts ≠ []) :
    detect_multirows_and_split (h :: m :: ts.map (mkCont h.length j)) =
      .ok [dictSet (zipRecord h m) (h.getD j [])
        (.list (.atom (m.getD j []) :: ts.map .atom))] ∧
    (Value.atom (m.getD j []) :: ts.map Value.atom).length = ts.length + 1 := by
  refine ⟨?_, by simp⟩
  cases m with
  | nil => simp at hlen; omega
  | cons m0 mrest =>
    have hm0ne : m0 ≠ [] := by simpa using hm0
    cases ts with
    | nil => exact absurd rfl htsne
    | cons t1 ts2 =>
      simp only [detect_multirows_and_split, List.map_cons, dmasGo]
      rw [if_neg hm0ne]
      rw [assignAll_eq h (m0 :: mrest) [] hnd hlen (fun k _ => rfl)]
      simp only [List.nil_append]
      have hget0 : dictGet (zipRecord h (m0 :: mrest)) (h.getD j []) =
          some (.atom ((m0 :: mrest).getD j [])) :=
        dictGet_zipRecord h (m0 :: mrest) j hnd hj hlen
      rw [show [zipRecord h (m0 :: mrest)] =
        ([] : List RecordV) ++ [zipRecord h (m0 :: mrest)] from rfl]
      rw [dmasGo_cont_step h j t1 [] (zipRecord h (m0 :: mrest))
        (.atom ((m0 :: mrest).getD j [])) (ts2.map (mkCont h.length j)) hj0 hj
        (hts t1 (List.mem_cons_self t1 ts2)) hget0]
      have hchain := dmasGo_chain h j hj0 hj ts2 []
        (dictSet (zipRecord h (m0 :: mrest)) (h.getD j [])
          (promote (.atom ((m0 :: mrest).getD j [])) t1))
        [.atom ((m0 :: mrest).getD j []), .atom t1]
        (fun t2 hm => hts t2 (List.mem_cons_of_mem t1 hm))
        (by simp [promote, dictGet_dictSet_self])
      simp only [promote] at hchain ⊢
      rw [hchain, dictSet_dictSet_same]
      simp

/-- Witness for C2: a two-column block with two continuation rows (`K = 2`)
contributing to the second column. -/
theorem claim2_witness :
    detect_multirows_and_split
        [[str "A", str "B"], [str "x", str "m0"],
         mkCont 2 1 (str "m1"), mkCont 2 1 (str "m2")] =
      .ok [dictSet (zipRecord [str "A", str "B"] [str "x", str "m0"])
        ([str "A", str "B"].getD 1 [])
        (.list (.atom ([str "x", str "m0"].getD 1 []) ::
          [str "m1", str "m2"].map .atom))] ∧
    (Value.atom ([str "x", str "m0"].getD 1 []) ::
      [str "m1", str "m2"].map Value.atom).length = [str "m1", str "m2"].length + 1 :=
  claim2_theorem [str "A", str "B"] [str "x", str "m0"] 1 [str "m1", str "m2"]
    (by decide) rfl (by decide) (by decide) (by decide) (by decide) (by decide)

theorem matchesAt_iff (p : List Char) : ∀ (l : List Char),
    matchesAt p l = true ↔
      ∃ mid post, l = mid ++ post ∧
        List.Forall₂ (fun pc c => phraseCharB pc c = true) p mid := by
  induction p with
  | nil =>
    intro l
    simp only [matchesAt]
    constructor
    · intro _; exact ⟨[], l, rfl, List.Forall₂.nil⟩
    · intro _; trivial
  | cons pc ps ih =>
    intro l
    cases l with
    | nil =>
      simp only [matchesAt]
      constructor
      · intro h; exact absurd h (by simp)
      · rintro ⟨mid, post, heq, hf⟩
        have hmid : mid = [] := (List.append_eq_nil.mp heq.symm).1
        subst hmid
        cases hf
    | cons c cs =>
      simp only [matchesAt, Bool.and_eq_true, ih]
      constructor
      · rintro ⟨hpc, mid, post, rfl, hf⟩
        exact ⟨c :: mid, post, rfl, List.Forall₂.cons hpc hf⟩
      · rintro ⟨mid, post, heq, hf⟩
        cases hf with
        | cons hpc hf2 =>
          rename_i b l2
          have hinj := List.cons.inj heq
          refine ⟨hinj.1 ▸ hpc, l2, post, hinj.2, hf2⟩

theorem containsPhrase_iff (p : List Char) : ∀ (l : List Char),
    containsPhrase p l = true ↔ OccursPhrase p l := by
  intro l
  induction l with
  | nil =>
    simp only [containsPhrase, OccursPhrase]
    rw [matchesAt_iff]
    constructor
    · rintro ⟨mid, post, heq, hf⟩
      exact ⟨[], mid, post, by simpa using heq, hf⟩
    · rintro ⟨pre, mid, post, heq, hf⟩
      have hpre : pre = [] :=
        (List.append_eq_nil.mp (List.append_eq_nil.mp heq.symm).1).1
      subst hpre
      exact ⟨mid, post, by simpa using heq, hf⟩
  | cons c cs ih =>
    simp only [containsPhrase, Bool.or_eq_true, ih]
    rw [matchesAt_iff]
    constructor
    · rintro (⟨mid, post, heq, hf⟩ | ⟨pre, mid, post, heq, hf⟩)
      · exact ⟨[], mid, post, by simpa using heq, hf⟩
      · exact ⟨c :: pre, mid, post, by simp [heq], hf⟩
    · rintro ⟨pre, mid, post, heq, hf⟩
      cases pre with
      | nil => left; exact ⟨mid, post, by simpa using heq, hf⟩
      | cons p0 pre2 =>
        right
        have hinj := List.cons.inj heq
        exact ⟨pre2, mid, post, hinj.2, hf⟩

/-- Claim C6 (amended): after stripping trailing newlines, the line is tested
in order against the three failure signatures case-sensitively — `program has
bombed`, `Basis vectors are not a right-handed set` (capital `B`), `not all
elements of the subgroup are elements of parent group`, every gap matching one
whitespace character — and when no signature occurs the line is returned as
ordinary output. -/
theorem claim6_theorem (raw : List Char) :
    (read_iso_line raw = .error .bombed ↔
      OccursPhrase (str "program has bombed") (stripTrailNl raw)) ∧
    (read_iso_line raw = .error .badBasis ↔
      ¬ OccursPhrase (str "program has bombed") (stripTrailNl raw) ∧
      OccursPhrase (str "Basis vectors are not a right-handed set") (stripTrailNl raw)) ∧
    (read_iso_line raw = .error .badSubgroup ↔
      ¬ OccursPhrase (str "program has bombed") (stripTrailNl raw) ∧
      ¬ OccursPhrase (str "Basis vectors are not a right-handed set") (stripTrailNl raw) ∧
      OccursPhrase
        (str "not all elements of the subgroup are elements of parent group")
        (stripTrailNl raw)) ∧
    (read_iso_line raw = .ok (stripTrailNl raw) ↔
      ¬ OccursPhrase (str "program has bombed") (stripTrailNl raw) ∧
      ¬ OccursPhrase (str "Basis vectors are not a right-handed set") (stripTrailNl raw) ∧
      ¬ OccursPhrase
        (str "not all elements of the subgroup are elements of parent group")
        (stripTrailNl raw)) := by
  have e1 := containsPhrase_iff (str "program has bombed") (stripTrailNl raw)
  have e2 := containsPhrase_iff
    (str "Basis vectors are not a right-handed set") (stripTrailNl raw)
  have e3 := containsPhrase_iff
    (str "not all elements of the subgroup are elements of parent group") (stripTrailNl raw)
  simp only [read_iso_line]
  by_cases h1 : containsPhrase (str "program has bombed") (stripTrailNl raw) = true
  · rw [if_pos h1]
    simp [← e1, ← e2, ← e3, h1]
  · rw [if_neg h1]
    by_cases h2 : containsPhrase
        (str "Basis vectors are not a right-handed set") (stripTrailNl raw) = true
    · rw [if_pos h2]
      simp [← e1, ← e2, ← e3, h1, h2]
    · rw [if_neg h2]
      by_cases h3 : containsPhrase
          (str "not all elements of the subgroup are elements of parent group")
          (stripTrailNl raw) = true
      · rw [if_pos h3]
        simp [← e1, ← e2, ← e3, h1, h2, h3]
      · rw [if_neg h3]
        simp [← e1, ← e2, ← e3, h1, h2, h3]

theorem ws_not_paren (c : Char) (h : isPySpace c = true) : c ≠ '(' ∧ c ≠ ')' := by
  constructor <;> intro he <;> subst he <;> exact absurd h (by decide)

theorem ncbo_all_nonparen (ys : List Char) (hys : ∀ c ∈ ys, c ≠ '(' ∧ c ≠ ')') :
    noCloseBeforeOpen ys = true := by
  induction ys with
  | nil => rfl
  | cons c cs ih =>
    have hc := hys c (List.mem_cons_self c cs)
    simp only [noCloseBeforeOpen, if_neg hc.2, if_neg hc.1]
    exact ih (fun c2 hm => hys c2 (List.mem_cons_of_mem c hm))

theorem ncbo_append (xs ys : List Char) (hys : ∀ c ∈ ys, c ≠ '(' ∧ c ≠ ')') :
    noCloseBeforeOpen (xs ++ ys) = noCloseBeforeOpen xs := by
  induction xs with
  | nil => simp [ncbo_all_nonparen ys hys, noCloseBeforeOpen]
  | cons x xs2 ih =>
    simp only [List.cons_append, noCloseBeforeOpen]
    by_cases hx : x = ')'
    · rw [if_pos hx, if_pos hx]
    · rw [if_neg hx, if_neg hx]
      by_cases hx2 : x = '('
      · rw [if_pos hx2, if_pos hx2]
      · rw [if_neg hx2, if_neg hx2]
        exact ih

theorem countSplits_all_ws (d : Char) (hd : isPySpace d = false) (ys : List Char)
    (hys : ∀ c ∈ ys, isPySpace c = true) : countSplits d ys = 0 := by
  induction ys with
  | nil => rfl
  | cons c cs ih =>
    have hc : isPySpace c = true := hys c (List.mem_cons_self c cs)
    have hcd : ¬(c = d) := by
      intro he
      rw [he] at hc
      rw [hc] at hd
      exact Bool.noConfusion hd
    simp only [countSplits]
    rw [if_neg (by simp [hcd])]
    simpa using ih (fun c2 hm => hys c2 (List.mem_cons_of_mem c hm))

theorem countSplits_append_ws (d : Char) (hd : isPySpace d = false) (xs ys : List Char)
    (hys : ∀ c ∈ ys, isPySpace c = true) :
    countSplits d (xs ++ ys) = countSplits d xs := by
  induction xs with
  | nil => simpa using countSplits_all_ws d hd ys hys
  | cons x xs2 ih =>
    simp only [List.cons_append, countSplits, List.append_eq]
    rw [ih]
    simp only [ncbo_append xs2 ys (fun c hm => ws_not_paren c (hys c hm))]

theorem countSplits_ws_prefix (d : Char) (hd : isPySpace d = false) (ys xs : List Char)
    (hys : ∀ c ∈ ys, isPySpace c = true) :
    countSplits d (ys ++ xs) = countSplits d xs := by
  induction ys with
  | nil => rfl
  | cons c cs ih =>
    have hc : isPySpace c = true := hys c (List.mem_cons_self c cs)
    have hcd : ¬(c = d) := by
      intro he
      rw [he] at hc
      rw [hc] at hd
      exact Bool.noConfusion hd
    simp only [List.cons_append, countSplits, List.append_eq]
    rw [ih (fun c2 hm => hys c2 (List.mem_cons_of_mem c hm))]
    simp [hcd]

theorem exists_trail (s : List Char) :
    ∃ tw, s = stripTrail s ++ tw ∧ ∀ c ∈ tw, isPySpace c = true := by
  refine ⟨(s.reverse.takeWhile isPySpace).reverse, ?_, ?_⟩
  · conv_lhs => rw [← s.reverse_reverse,
      ← List.takeWhile_append_dropWhile (p := isPySpace) (l := s.reverse)]
    rw [List.reverse_append]
    rfl
  · intro c hm
    rw [List.mem_reverse] at hm
    exact List.mem_takeWhile_imp hm

theorem exists_lead (s : List Char) :
    ∃ lw, s = lw ++ stripLead s ∧ ∀ c ∈ lw, isPySpace c = true := by
  refine ⟨s.takeWhile isPySpace, ?_, ?_⟩
  · simp only [stripLead]
    rw [List.takeWhile_append_dropWhile]
  · intro c hm
    exact List.mem_takeWhile_imp hm

theorem splitDGo_length (d : Char) (hd : isPySpace d = false) :
    ∀ (cs acc : List Char) (skip : Bool),
    (splitDGo d acc cs skip).length = countSplits d cs + 1 := by
  intro cs
  induction cs with
  | nil => intro acc skip; rfl
  | cons c cs2 ih =>
    intro acc skip
    simp only [splitDGo]
    by_cases h1 : (skip && isPySpace c) = true
    · rw [if_pos h1, ih acc true]
      have hc : isPySpace c = true := by
        have h1b : skip = true ∧ isPySpace c = true := by simpa using h1
        exact h1b.2
      have hcd : ¬(c = d) := by
        intro he
        rw [he] at hc
        rw [hc] at hd
        exact Bool.noConfusion hd
      simp [countSplits, hcd]
    · rw [if_neg h1]
      by_cases h2 : (c = d && noCloseBeforeOpen cs2) = true
      · rw [if_pos h2]
        simp only [List.length_cons]
        rw [ih [] true]
        simp only [countSplits]
        rw [if_pos h2]
        omega
      · rw [if_neg h2, ih (c :: acc) false]
        simp only [countSplits]
        rw [if_neg h2]
        omega

theorem splitD_length (d : Char) (hd : isPySpace d = false) (s : List Char) :
    (splitD d s).length = countSplits d s + 1 :=
  splitDGo_length d hd s [] false

theorem pySplitGo_all_ws (tw : List Char) (htw : ∀ c ∈ tw, isPySpace c = true) :
    ∀ (acc : List Char),
    pySplitGo acc tw = if acc.isEmpty then [] else [acc.reverse] := by
  induction tw with
  | nil => intro acc; rfl
  | cons c cs ih =>
    intro acc
    have hc := htw c (List.mem_cons_self c cs)
    have ih2 := ih (fun c2 hm => htw c2 (List.mem_cons_of_mem c hm))
    simp only [pySplitGo]
    rw [if_pos hc]
    by_cases ha : acc.isEmpty = true
    · rw [if_pos ha, if_pos ha, ih2 []]
      rfl
    · rw [if_neg ha, if_neg ha, ih2 []]
      rfl

theorem pySplitGo_append_ws (tw : List Char) (htw : ∀ c ∈ tw, isPySpace c = true) :
    ∀ (xs acc : List Char), pySplitGo acc (xs ++ tw) = pySplitGo acc xs := by
  intro xs
  induction xs with
  | nil =>
    intro acc
    simp only [List.nil_append]
    rw [pySplitGo_all_ws tw htw acc]
    rfl
  | cons x xs2 ih =>
    intro acc
    simp only [List.cons_append, pySplitGo, List.append_eq]
    by_cases hx : isPySpace x = true
    · rw [if_pos hx, if_pos hx]
      by_cases ha : acc.isEmpty = true
      · rw [if_pos ha, if_pos ha, ih []]
      · rw [if_neg ha, if_neg ha, ih []]
    · rw [if_neg hx, if_neg hx, ih (x :: acc)]

theorem pySplitGo_ws_prefix (lw : List Char) (hlw : ∀ c ∈ lw, isPySpace c = true) :
    ∀ (xs : List Char), pySplitGo [] (lw ++ xs) = pySplitGo [] xs := by
  induction lw with
  | nil => intro xs; rfl
  | cons c cs ih =>
    intro xs
    have hc := hlw c (List.mem_cons_self c cs)
    simp only [List.cons_append, pySplitGo, List.append_eq]
    rw [if_pos hc, if_pos (show ([] : List Char).isEmpty = true from rfl)]
    exact ih (fun c2 hm => hlw c2 (List.mem_cons_of_mem c hm)) xs

theorem countSplits_pyStrip (d : Char) (hd : isPySpace d = false) (s : List Char) :
    countSplits d (pyStrip s) = countSplits d s := by
  obtain ⟨lw, hlw, hlww⟩ := exists_lead s
  obtain ⟨tw, htw, htww⟩ := exists_trail (stripLead s)
  have h1 : countSplits d s = countSplits d (stripLead s) := by
    conv_lhs => rw [hlw]
    exact countSplits_ws_prefix d hd lw _ hlww
  have h2 : countSplits d (stripLead s) = countSplits d (pyStrip s) := by
    conv_lhs => rw [htw]
    exact countSplits_append_ws d hd _ tw htww
  rw [h1, h2]

theorem pySplitWs_pyStrip (s : List Char) : pySplitWs (pyStrip s) = pySplitWs s := by
  obtain ⟨lw, hlw, hlww⟩ := exists_lead s
  obtain ⟨tw, htw, htww⟩ := exists_trail (stripLead s)
  have h1 : pySplitWs s = pySplitWs (stripLead s) := by
    unfold pySplitWs
    conv_lhs => rw [hlw]
    exact pySplitGo_ws_prefix lw hlww _
  have h2 : pySplitWs (stripLead s) = pySplitWs (pyStrip s) := by
    unfold pySplitWs pyStrip
    conv_lhs => rw [htw]
    exact pySplitGo_append_ws tw htww _ []
  rw [h1, h2]

theorem dropWhile_dropWhile (p : Char → Bool) (l : List Char) :
    List.dropWhile p (List.dropWhile p l) = List.dropWhile p l := by
  induction l with
  | nil => rfl
  | cons c cs ih =>
    by_cases hc : p c = true
    · simp [List.dropWhile_cons, hc, ih]
    · simp [List.dropWhile_cons, hc]

theorem dropWhile_suffix_self (p : Char → Bool) (l : List Char) :
    l.dropWhile p <:+ l := by
  induction l with
  | nil => exact List.suffix_rfl
  | cons c cs ih =>
    by_cases hc : p c = true
    · rw [List.dropWhile_cons, if_pos hc]
      exact ih.trans (List.suffix_cons c cs)
    · rw [List.dropWhile_cons, if_neg hc]

theorem head?_dropWhile (p : Char → Bool) (l : List Char) (c : Char)
    (h : (l.dropWhile p).head? = some c) : p c = false := by
  induction l with
  | nil => simp at h
  | cons a as ih =>
    by_cases ha : p a = true
    · rw [List.dropWhile_cons, if_pos ha] at h
      exact ih h
    · rw [List.dropWhile_cons, if_neg ha] at h
      simp only [List.head?_cons, Option.some.injEq] at h
      subst h
      cases hpc : p a
      · rfl
      · exact absurd hpc ha

theorem dropWhile_eq_self_head (p : Char → Bool) (l : List Char) :
    List.dropWhile p l = l ↔ ∀ c, l.head? = some c → p c = false := by
  cases l with
  | nil => simp
  | cons a as =>
    constructor
    · intro h c hc
      simp only [List.head?_cons, Option.some.injEq] at hc
      subst hc
      cases hpc : p a
      · rfl
      · exfalso
        rw [List.dropWhile_cons, if_pos hpc] at h
        have hlen := congrArg List.length h
        have hle := (dropWhile_suffix_self p as).length_le
        simp only [List.length_cons] at hlen
        omega
    · intro h
      have hpa : p a = false := h a rfl
      rw [List.dropWhile_cons, if_neg (by simp [hpa])]

theorem noTrail_iff (s : List Char) :
    stripTrail s = s ↔ ∀ c, s.reverse.head? = some c → isPySpace c = false := by
  constructor
  · intro h
    have h2 : s.reverse.dropWhile isPySpace = s.reverse := by
      have h3 := congrArg List.reverse h
      rw [stripTrail, List.reverse_reverse] at h3
      exact h3
    exact (dropWhile_eq_self_head _ _).mp h2
  · intro h
    rw [stripTrail, (dropWhile_eq_self_head _ _).mpr h, List.reverse_reverse]

theorem noTrail_stripLead (s : List Char) (h : stripTrail s = s) :
    stripTrail (stripLead s) = stripLead s := by
  rw [noTrail_iff] at h ⊢
  intro c hc
  obtain ⟨t, ht⟩ : stripLead s <:+ s := dropWhile_suffix_self isPySpace s
  apply h c
  rw [← ht, List.reverse_append]
  cases hsl : (stripLead s).reverse with
  | nil => rw [hsl] at hc; simp at hc
  | cons a rest =>
    rw [hsl] at hc
    simp only [List.head?_cons, Option.some.injEq] at hc
    subst hc
    rfl

theorem parenMatch_stripLead (s : List Char) :
    parenMatch (stripLead s) = parenMatch s := by
  simp only [parenMatch, stripLead, dropWhile_dropWhile]

theorem parenTail_mem (rest : List Char) (h : parenTail rest = true) : ')' ∈ rest := by
  rw [← List.mem_reverse]
  cases hr : rest.reverse with
  | nil =>
    simp only [parenTail, hr] at h
    exact Bool.noConfusion h
  | cons c rev =>
    simp only [parenTail, hr] at h
    by_cases hc : c = ')'
    · rw [hc]; exact List.mem_cons_self _ _
    · rw [if_neg hc] at h
      by_cases hc2 : c = '\n'
      · rw [if_pos hc2] at h
        cases rev with
        | nil => exact absurd h (by simp)
        | cons c2 rev2 =>
          have h2 : c2 = ')' ∧ (!rev2.contains '\n') = true := by simpa using h
          rw [h2.1]
          exact List.mem_cons_of_mem c (List.mem_cons_self _ _)
      · rw [if_neg hc2] at h
        exact absurd h (by simp)

theorem parenMatch_mem (x : List Char) (h : parenMatch x = true) : ')' ∈ x := by
  cases hd : x.dropWhile isPySpace with
  | nil =>
    simp only [parenMatch, hd] at h
    exact Bool.noConfusion h
  | cons c rest =>
    simp only [parenMatch, hd] at h
    have h2 : c = '(' ∧ parenTail rest = true := by simpa using h
    have hmem : ')' ∈ x.dropWhile isPySpace := by
      rw [hd]
      exact List.mem_cons_of_mem c (parenTail_mem rest h2.2)
    exact (dropWhile_suffix_self isPySpace x).sublist.subset hmem

theorem parenMatch_head (x : List Char) (h : parenMatch x = true) :
    ∃ rest, x.dropWhile isPySpace = '(' :: rest := by
  cases hd : x.dropWhile isPySpace with
  | nil =>
    simp only [parenMatch, hd] at h
    exact Bool.noConfusion h
  | cons c rest =>
    simp only [parenMatch, hd] at h
    have h2 : c = '(' ∧ parenTail rest = true := by simpa using h
    exact ⟨rest, by rw [h2.1]⟩

theorem stripTrail_prefix_self (x : List Char) : stripTrail x <+: x := by
  obtain ⟨tw, heq, _⟩ := exists_trail x
  exact ⟨tw, heq.symm⟩

theorem stripTrail_stripTrail (x : List Char) :
    stripTrail (stripTrail x) = stripTrail x := by
  simp only [stripTrail, List.reverse_reverse, dropWhile_dropWhile]

theorem pyStrip_sublist (s : List Char) : List.Sublist (pyStrip s) s :=
  ((stripTrail_prefix_self (stripLead s)).sublist).trans
    (dropWhile_suffix_self isPySpace s).sublist

theorem stripLead_pyStrip (s : List Char) : stripLead (pyStrip s) = pyStrip s := by
  cases ha : pyStrip s with
  | nil => rfl
  | cons a as =>
    obtain ⟨tw, htw⟩ := stripTrail_prefix_self (stripLead s)
    have hp : stripTrail (stripLead s) = a :: as := ha
    have hhead : (stripLead s).head? = some a := by
      rw [← htw, hp]
      rfl
    have hpa : isPySpace a = false := head?_dropWhile isPySpace s a hhead
    rw [stripLead, List.dropWhile_cons, if_neg (by simp [hpa])]

theorem pyStrip_idem (s : List Char) : pyStrip (pyStrip s) = pyStrip s := by
  show stripTrail (stripLead (pyStrip s)) = pyStrip s
  rw [stripLead_pyStrip s]
  show stripTrail (stripTrail (stripLead s)) = pyStrip s
  rw [stripTrail_stripTrail]
  exact rfl

theorem parenMatch_pyStrip_content (s : List Char) (hg : GoodContent s) :
    parenMatch (pyStrip s) = false := by
  by_contra hcon
  have hx : parenMatch (pyStrip s) = true := by
    cases hb : parenMatch (pyStrip s)
    · exact absurd hb hcon
    · rfl
  have hmem : ')' ∈ pyStrip s := parenMatch_mem _ hx
  have hmem_s : ')' ∈ s := (pyStrip_sublist s).subset hmem
  obtain ⟨c0, cs, rfl⟩ : ∃ c0 cs, s = c0 :: cs := by
    cases s with
    | nil => exact absurd rfl hg.1
    | cons c0 cs => exact ⟨c0, cs, rfl⟩
  have hc0 : c0 = ')' := by
    rcases List.mem_cons.mp hmem_s with h | h
    · exact h.symm
    · exact absurd rfl (hg.2 ')' h)
  subst hc0
  have hsl : stripLead (')' :: cs) = ')' :: cs := by
    rw [stripLead, List.dropWhile_cons, if_neg (by decide)]
  have hpre : pyStrip (')' :: cs) <+: (')' :: cs) := by
    rw [pyStrip, hsl]
    exact stripTrail_prefix_self _
  obtain ⟨z0, zs, hz⟩ : ∃ z0 zs, pyStrip (')' :: cs) = z0 :: zs := by
    cases hps : pyStrip (')' :: cs) with
    | nil => rw [hps] at hmem; exact absurd hmem (by simp)
    | cons z0 zs => exact ⟨z0, zs, rfl⟩
  have hz0 : z0 = ')' := by
    obtain ⟨tw, htw⟩ := hpre
    rw [hz] at htw
    exact (List.cons.inj htw).1
  obtain ⟨rest, hre⟩ := parenMatch_head _ hx
  rw [hz, hz0] at hre
  rw [List.dropWhile_cons, if_neg (by decide)] at hre
  exact absurd (List.cons.inj hre).1 (by decide)

theorem scanClose_facts (cs : List Char) :
    ∀ (m r : List Char), scanClose cs = some (m, r) →
    (∀ c ∈ m, c ≠ ')') ∧ m.length + 1 + r.length = cs.length := by
  induction cs with
  | nil => intro m r h; simp [scanClose] at h
  | cons c cs2 ih =>
    intro m r h
    simp only [scanClose] at h
    by_cases hc : c = ')'
    · rw [if_pos hc] at h
      have h2 : m = [] ∧ r = cs2 := by
        have h3 : ([] : List Char) = m ∧ cs2 = r := by simpa using h
        exact ⟨h3.1.symm, h3.2.symm⟩
      obtain ⟨rfl, rfl⟩ := h2
      refine ⟨fun c2 hm => absurd hm (by simp), ?_⟩
      simp only [List.length_nil, List.length_cons]
      omega
    · rw [if_neg hc] at h
      by_cases hn : c = '\n'
      · rw [if_pos hn] at h
        exact absurd h (by simp)
      · rw [if_neg hn] at h
        cases hsc : scanClose cs2 with
        | none => rw [hsc] at h; exact absurd h (by simp)
        | some mr =>
          obtain ⟨m2, r2⟩ := mr
          rw [hsc] at h
          have h2 : c :: m2 = m ∧ r2 = r := by simpa using h
          obtain ⟨hm, hr⟩ := h2
          subst hm
          subst hr
          have ih2 := ih m2 r2 hsc
          have hlen := ih2.2
          constructor
          · intro c2 hm2
            rcases List.mem_cons.mp hm2 with rfl | hmm2
            · exact hc
            · exact ih2.1 c2 hmm2
          · simp only [List.length_cons]
            omega

theorem findClose_facts (cs : List Char) (m r : List Char)
    (h : findClose cs = some (m, r)) :
    m ≠ [] ∧ (∀ c ∈ m.tail, c ≠ ')') ∧ m.length + 1 + r.length = cs.length := by
  cases cs with
  | nil => simp [findClose] at h
  | cons c cs2 =>
    simp only [findClose] at h
    by_cases hn : c = '\n'
    · rw [if_pos hn] at h
      exact absurd h (by simp)
    · rw [if_neg hn] at h
      cases hsc : scanClose cs2 with
      | none => rw [hsc] at h; exact absurd h (by simp)
      | some mr =>
        obtain ⟨m2, r2⟩ := mr
        rw [hsc] at h
        have h2 : c :: m2 = m ∧ r2 = r := by simpa using h
        obtain ⟨hm, hr⟩ := h2
        subst hm
        subst hr
        have hf := scanClose_facts cs2 m2 r2 hsc
        have hlen := hf.2
        refine ⟨by simp, ?_, ?_⟩
        · intro c2 hm2
          exact hf.1 c2 hm2
        · simp only [List.length_cons]
          omega

theorem findGroupsF_shape : ∀ (fuel : Nat) (s g : List Char),
    g ∈ findGroupsF fuel s → GoodContent g := by
  intro fuel
  induction fuel with
  | zero => intro s g hg; simp [findGroupsF] at hg
  | succ f ih =>
    intro s g hg
    cases s with
    | nil => simp [findGroupsF] at hg
    | cons c cs =>
      simp only [findGroupsF] at hg
      by_cases hc : c = '('
      · rw [if_pos hc] at hg
        cases hfc : findClose cs with
        | none => rw [hfc] at hg; exact ih cs g hg
        | some mr =>
          obtain ⟨m, r⟩ := mr
          rw [hfc] at hg
          rcases List.mem_cons.mp hg with rfl | hg2
          · have hf := findClose_facts cs g r hfc
            exact ⟨hf.1, hf.2.1⟩
          · exact ih r g hg2
      · rw [if_neg hc] at hg
        exact ih cs g hg

theorem findGroups_shape (s g : List Char) (h : g ∈ findGroups s) : GoodContent g :=
  findGroupsF_shape s.length s g h

theorem findGroupsF_sum : ∀ (fuel : Nat) (s : List Char),
    sumLens (findGroupsF fuel s) + 2 * (findGroupsF fuel s).length ≤ s.length := by
  intro fuel
  induction fuel with
  | zero => intro s; simp [findGroupsF, sumLens]
  | succ f ih =>
    intro s
    cases s with
    | nil => simp [findGroupsF, sumLens]
    | cons c cs =>
      simp only [findGroupsF]
      by_cases hc : c = '('
      · rw [if_pos hc]
        cases hfc : findClose cs with
        | none =>
          have := ih cs
          simp only [List.length_cons]
          omega
        | some mr =>
          obtain ⟨m, r⟩ := mr
          have hf := findClose_facts cs m r hfc
          have hlen := hf.2.2
          have := ih r
          simp only [sumLens, List.map_cons, List.sum_cons, List.length_cons]
          simp only [sumLens] at this
          omega
      · rw [if_neg hc]
        have := ih cs
        simp only [List.length_cons]
        omega

theorem findGroups_sum (s : List Char) :
    sumLens (findGroups s) + 2 * (findGroups s).length ≤ s.length :=
  findGroupsF_sum s.length s

theorem splitDGo_sum (d : Char) : ∀ (cs acc : List Char) (skip : Bool),
    sumLens (splitDGo d acc cs skip) + (splitDGo d acc cs skip).length ≤
      acc.length + cs.length + 1 := by
  intro cs
  induction cs with
  | nil =>
    intro acc skip
    simp [splitDGo, sumLens]
  | cons c cs2 ih =>
    intro acc skip
    simp only [splitDGo]
    by_cases h1 : (skip && isPySpace c) = true
    · rw [if_pos h1]
      have := ih acc true
      simp only [List.length_cons]
      omega
    · rw [if_neg h1]
      by_cases h2 : (c = d && noCloseBeforeOpen cs2) = true
      · rw [if_pos h2]
        have := ih [] true
        simp only [sumLens, List.map_cons, List.sum_cons, List.length_cons,
          List.length_reverse, List.length_nil] at this ⊢
        omega
      · rw [if_neg h2]
        have := ih (c :: acc) false
        simp only [List.length_cons] at this ⊢
        omega

theorem splitD_sum (d : Char) (s : List Char) :
    sumLens (splitD d s) + (splitD d s).length ≤ s.length + 1 := by
  simpa using splitDGo_sum d s [] false

theorem pySplitGo_sum : ∀ (cs acc : List Char),
    sumLens (pySplitGo acc cs) + (pySplitGo acc cs).length ≤
      acc.length + cs.length + 1 := by
  intro cs
  induction cs with
  | nil =>
    intro acc
    simp only [pySplitGo]
    by_cases ha : acc.isEmpty = true
    · rw [if_pos ha]
      simp [sumLens]
    · rw [if_neg ha]
      simp [sumLens]
  | cons c cs2 ih =>
    intro acc
    simp only [pySplitGo]
    by_cases hc : isPySpace c = true
    · rw [if_pos hc]
      by_cases ha : acc.isEmpty = true
      · rw [if_pos ha]
        have := ih []
        simp only [List.length_nil, List.length_cons] at this ⊢
        omega
      · rw [if_neg ha]
        have := ih []
        simp only [sumLens, List.map_cons, List.sum_cons, List.length_cons,
          List.length_reverse, List.length_nil] at this ⊢
        omega
    · rw [if_neg hc]
      have := ih (c :: acc)
      simp only [List.length_cons] at this ⊢
      omega

theorem pySplitWs_sum (s : List Char) :
    sumLens (pySplitWs s) + (pySplitWs s).length ≤ s.length + 1 := by
  simpa using pySplitGo_sum s []

theorem vmeasureL_map_atom (ps : List (List Char)) :
    vmeasureL (ps.map .atom) = 4 * sumLens ps + ps.length := by
  induction ps with
  | nil => rfl
  | cons p ps2 ih =>
    simp only [List.map_cons]
    rw [show vmeasureL (Value.atom p :: ps2.map .atom) =
      vmeasureV (.atom p) + 1 + vmeasureL (ps2.map .atom) from rfl, ih]
    rw [show vmeasureV (Value.atom p) = 4 * p.length from rfl]
    simp only [sumLens, List.map_cons, List.sum_cons, List.length_cons]
    ring

theorem measure_pieces_lt (s : List Char) (ps : List (List Char))
    (hk : 1 < ps.length) (hsum : sumLens ps + ps.length ≤ s.length + 1) :
    vmeasureV (.list (ps.map .atom)) < 4 * s.length := by
  rw [show vmeasureV (.list (ps.map .atom)) = 1 + vmeasureL (ps.map .atom) from rfl,
    vmeasureL_map_atom]
  omega

theorem dddcF_list_shape (f : Nat) (l : List Value) (r : Value)
    (h : dddcF f (.list l) = some (.ok r)) : ∃ rs, r = .list rs := by
  cases f with
  | zero => simp [dddcF] at h
  | succ f2 =>
    rw [show dddcF (f2 + 1) (.list l) =
      (match dddcLF f2 l with
       | none => none
       | some (.error e) => some (.error e)
       | some (.ok rs) => some (.ok (.list rs))) from rfl] at h
    cases hres : dddcLF f2 l with
    | none => rw [hres] at h; exact absurd h (by simp)
    | some x =>
      cases x with
      | error e => rw [hres] at h; exact absurd h (by simp)
      | ok rs =>
        rw [hres] at h
        have h2 : Value.list rs = r := by simpa using h
        exact ⟨rs, h2.symm⟩

theorem dddcF_atom_eq (f : Nat) (s : List Char) :
    dddcF (f + 1) (.atom s) =
      (if 1 < (splitD '|' s).length then dddcF f (.list ((splitD '|' s).map .atom))
       else if 1 < (splitD ',' s).length then dddcF f (.list ((splitD ',' s).map .atom))
       else if parenMatch s then
         (if 1 < (findGroups s).length then dddcF f (.list ((findGroups s).map .atom))
          else
            match findGroups s with
            | [] => some (.error .indexError)
            | g :: _ => dddcF f (.atom g))
       else if 1 < (pySplitWs s).length then dddcF f (.list ((pySplitWs s).map .atom))
       else some (.ok (.atom (pyStrip s)))) := rfl

/-- Fuel above the measure never runs out: every recursive call of
`detect_data_form_and_convert` strictly decreases `vmeasureV`, so the fuelled
recursion is total on the fuel the wrapper supplies. -/
theorem dddc_total : ∀ (fuel : Nat),
    (∀ v, vmeasureV v < fuel → dddcF fuel v ≠ none) ∧
    (∀ l, vmeasureL l < fuel → dddcLF fuel l ≠ none) := by
  intro fuel
  induction fuel with
  | zero => exact ⟨fun v h => absurd h (by omega), fun l h => absurd h (by omega)⟩
  | succ f ih =>
    constructor
    · intro v hv
      cases v with
      | list l =>
        have hl : vmeasureL l < f := by
          rw [show vmeasureV (.list l) = 1 + vmeasureL l from rfl] at hv
          omega
        have hne := ih.2 l hl
        rw [show dddcF (f + 1) (.list l) =
          (match dddcLF f l with
           | none => none
           | some (.error e) => some (.error e)
           | some (.ok rs) => some (.ok (.list rs))) from rfl]
        cases hres : dddcLF f l with
        | none => exact absurd hres hne
        | some x => cases x <;> simp
      | atom s =>
        rw [show vmeasureV (.atom s) = 4 * s.length from rfl] at hv
        rw [dddcF_atom_eq]
        by_cases h1 : 1 < (splitD '|' s).length
        · rw [if_pos h1]
          exact ih.1 _ (by
            have := measure_pieces_lt s _ h1 (splitD_sum '|' s)
            omega)
        · rw [if_neg h1]
          by_cases h2 : 1 < (splitD ',' s).length
          · rw [if_pos h2]
            exact ih.1 _ (by
              have := measure_pieces_lt s _ h2 (splitD_sum ',' s)
              omega)
          · rw [if_neg h2]
            by_cases h3 : parenMatch s = true
            · rw [if_pos h3]
              by_cases h4 : 1 < (findGroups s).length
              · rw [if_pos h4]
                exact ih.1 _ (by
                  have hsum := findGroups_sum s
                  have := measure_pieces_lt s (findGroups s) h4 (by omega)
                  omega)
              · rw [if_neg h4]
                cases hgs : findGroups s with
                | nil => simp
                | cons g rest =>
                  apply ih.1
                  have hsum := findGroups_sum s
                  rw [hgs] at hsum
                  rw [show vmeasureV (.atom g) = 4 * g.length from rfl]
                  simp only [sumLens, List.map_cons, List.sum_cons,
                    List.length_cons] at hsum
                  omega
            · rw [if_neg h3]
              by_cases h5 : 1 < (pySplitWs s).length
              · rw [if_pos h5]
                exact ih.1 _ (by
                  have := measure_pieces_lt s _ h5 (pySplitWs_sum s)
                  omega)
              · rw [if_neg h5]
                simp
    · intro l hl
      cases l with
      | nil => simp [dddcLF]
      | cons v vs =>
        rw [show vmeasureL (v :: vs) = vmeasureV v + 1 + vmeasureL vs from rfl] at hl
        have h1 : vmeasureV v < f := by omega
        have h2 : vmeasureL vs < f := by omega
        have hv := ih.1 v h1
        have hvs := ih.2 vs h2
        rw [show dddcLF (f + 1) (v :: vs) =
          (match dddcF f v with
           | none => none
           | some (.error e) => some (.error e)
           | some (.ok r) =>
             match dddcLF f vs with
             | none => none
             | some (.error e) => some (.error e)
             | some (.ok rs) => some (.ok (r :: rs))) from rfl]
        cases hres : dddcF f v with
        | none => exact absurd hres hv
        | some x =>
          cases x with
          | error e => simp
          | ok r =>
            cases hres2 : dddcLF f vs with
            | none => exact absurd hres2 hvs
            | some y => cases y <;> simp

theorem detect_atom_some (s : List Char) (x : Value)
    (h : detect_data_form_and_convert (.atom s) = .ok x) :
    dddcF (vmeasureV (.atom s) + 1) (.atom s) = some (.ok x) := by
  unfold detect_data_form_and_convert at h
  cases hres : dddcF (vmeasureV (.atom s) + 1) (.atom s) with
  | none =>
    rw [hres] at h
    exact absurd h (by simp)
  | some r =>
    rw [hres] at h
    simp only [Option.getD_some] at h
    rw [h]

/-- A decomposition that reaches the base case stays a fixed point: if the
decomposition of `s` (with `s` free of trailing whitespace, or shaped like a
parenthesis-group content) is a leaf atom `a`, then decomposing `a` returns
`a` unchanged. -/
theorem dddcF_leaf_fix : ∀ (fuel : Nat) (s a : List Char),
    (stripTrail s = s ∨ GoodContent s) →
    dddcF fuel (.atom s) = some (.ok (.atom a)) →
    dddcF (4 * a.length + 1) (.atom a) = some (.ok (.atom a)) := by
  intro fuel
  induction fuel with
  | zero => intro s a _ h; simp [dddcF] at h
  | succ f ih =>
    intro s a hg h
    rw [dddcF_atom_eq] at h
    by_cases h1 : 1 < (splitD '|' s).length
    · rw [if_pos h1] at h
      obtain ⟨rs, hrs⟩ := dddcF_list_shape f _ _ h
      exact absurd hrs (by simp)
    · rw [if_neg h1] at h
      by_cases h2 : 1 < (splitD ',' s).length
      · rw [if_pos h2] at h
        obtain ⟨rs, hrs⟩ := dddcF_list_shape f _ _ h
        exact absurd hrs (by simp)
      · rw [if_neg h2] at h
        by_cases h3 : parenMatch s = true
        · rw [if_pos h3] at h
          by_cases h4 : 1 < (findGroups s).length
          · rw [if_pos h4] at h
            obtain ⟨rs, hrs⟩ := dddcF_list_shape f _ _ h
            exact absurd hrs (by simp)
          · rw [if_neg h4] at h
            cases hgs : findGroups s with
            | nil => rw [hgs] at h; exact absurd h (by simp)
            | cons g rest =>
              rw [hgs] at h
              exact ih g a
                (Or.inr (findGroups_shape s g (hgs ▸ List.mem_cons_self g rest))) h
        · rw [if_neg h3] at h
          by_cases h5 : 1 < (pySplitWs s).length
          · rw [if_pos h5] at h
            obtain ⟨rs, hrs⟩ := dddcF_list_shape f _ _ h
            exact absurd hrs (by simp)
          · rw [if_neg h5] at h
            have ha : pyStrip s = a := by simpa using h
            subst ha
            rw [dddcF_atom_eq]
            have hs1 : ¬ 1 < (splitD '|' (pyStrip s)).length := by
              rw [splitD_length '|' (by decide), countSplits_pyStrip '|' (by decide)]
              rw [splitD_length '|' (by decide)] at h1
              omega
            have hs2 : ¬ 1 < (splitD ',' (pyStrip s)).length := by
              rw [splitD_length ',' (by decide), countSplits_pyStrip ',' (by decide)]
              rw [splitD_length ',' (by decide)] at h2
              omega
            have hs3 : ¬ parenMatch (pyStrip s) = true := by
              rcases hg with hng | hgc
              · have hps : pyStrip s = stripLead s := by
                  unfold pyStrip
                  rw [noTrail_stripLead s hng]
                rw [hps, parenMatch_stripLead]
                exact h3
              · rw [parenMatch_pyStrip_content s hgc]
                simp
            have hs5 : ¬ 1 < (pySplitWs (pyStrip s)).length := by
              rw [pySplitWs_pyStrip]
              exact h5
            rw [if_neg hs1, if_neg hs2, if_neg hs3, if_neg hs5, pyStrip_idem]

/-- Claim C8 (amended): decomposition is deterministic, and for every scalar
string without trailing whitespace whose decomposition is a leaf atom,
re-applying decomposition to that leaf returns it unchanged. -/
theorem claim8_theorem :
    (∀ v : Value, detect_data_form_and_convert v = detect_data_form_and_convert v) ∧
    (∀ s a : List Char, stripTrail s = s →
      detect_data_form_and_convert (.atom s) = .ok (.atom a) →
      detect_data_form_and_convert (.atom a) = .ok (.atom a)) := by
  refine ⟨fun v => rfl, ?_⟩
  intro s a hnt h
  have h2 := detect_atom_some s (.atom a) h
  have h3 := dddcF_leaf_fix (vmeasureV (.atom s) + 1) s a (Or.inl hnt) h2
  unfold detect_data_form_and_convert
  rw [show vmeasureV (Value.atom a) + 1 = 4 * a.length + 1 from rfl, h3]
  rfl

/-- Witness for C8 at the trailing-whitespace-free string `" alone"`, whose
decomposition is the leaf `"alone"`. -/
theorem claim8_witness :
    detect_data_form_and_convert (.atom (str "alone")) = .ok (.atom (str "alone")) :=
  claim8_theorem.2 (str " alone") (str "alone") (by decide) (by decide)

end Pysotropy
